import Mathlib

/-!
Shallow embedding of the `ftp` package: connection pool, transfer engine, reply classifier
and host resolver.

Conventions of the embedding.

* Go `int` / `int64` values are `Int`; Go integer division is `Int.tdiv` (truncation toward
  zero). Counters that only ever count up from zero (`connIdx`, `rawConnIdx`) are `Nat`.
* A Go `error` interface value is a `GoError`; `GoError.nil` is the nil interface.
* Go maps are association lists: reading a missing key gives the zero value, writing replaces
  the entry of the key or adds one.
* Calls that leave the package (network, DNS, the parts of the connection type that are not in
  the source tree) are resolved by explicit environment records passed to the functions.
-/

namespace ftp

/-! ## reply_codes.go -/

def replyGroupPreliminaryReply : Int := 1
def replyFileStatus : Int := 213
def replyServiceReady : Int := 220
def replyFileActionOkay : Int := 250
def replyFileActionPending : Int := 350
def replyOutOfSpace : Int := 452
def replyFileError : Int := 550

/-- Source: `positiveCompletionReply` (reply_codes.go:49). -/
def positiveCompletionReply (code : Int) : Bool := decide (Int.tdiv code 100 = 2)

/-- Source: `positivePreliminaryReply` (reply_codes.go:53). -/
def positivePreliminaryReply (code : Int) : Bool := decide (Int.tdiv code 100 = 1)

/-- Source: `transientNegativeCompletionReply` (reply_codes.go:57). -/
def transientNegativeCompletionReply (code : Int) : Bool := decide (Int.tdiv code 100 = 4)

/-! ## client.go: error values -/

/-- A Go `error` interface value as the package sees it: nil, a value of the package's own
`ftpError` struct (with its five fields), or any other error (`errors.New`, `fmt.Errorf`,
network and I/O errors), of which only the `Error()` text is observable. -/
inductive GoError where
  | nil : GoError
  | plain (text : String) : GoError
  | ftp (err : GoError) (code : Int) (msg : String) (timeout temporary : Bool) : GoError
deriving DecidableEq, Repr

/-- Source: `type ftpError struct` (client.go:61). Omitted fields take Go's zero values. -/
structure ftpError where
  err : GoError := GoError.nil
  code : Int := 0
  msg : String := ""
  timeout : Bool := false
  temporary : Bool := false
deriving DecidableEq, Repr

/-- An `ftpError` value stored in an `error` interface. -/
def ftpError.toError (e : ftpError) : GoError :=
  GoError.ftp e.err e.code e.msg e.timeout e.temporary

/-- Dynamic dispatch of `Error()`; the `ftp` cases are the body of `ftpError.Error`
(client.go:69): the wrapped error's text when there is one, else the formatted reply. -/
def GoError.Error : GoError → String
  | GoError.nil => ""
  | GoError.plain t => t
  | GoError.ftp GoError.nil code msg _ _ => "unexpected response: " ++ toString code ++ "-" ++ msg
  | GoError.ftp (GoError.plain t) _ _ _ _ => t
  | GoError.ftp (GoError.ftp a b c d e) _ _ _ _ => GoError.Error (GoError.ftp a b c d e)

/-- The type assertion `err.(Error)` succeeds exactly on the package's own error type. -/
def GoError.isError : GoError → Bool
  | GoError.ftp _ _ _ _ _ => true
  | _ => false

/-- Dynamic dispatch of `Code()`; the `ftp` case is the body of `ftpError.Code`
(client.go:85): delegate to the wrapped error when it is itself an `Error`. -/
def GoError.Code : GoError → Int
  | GoError.ftp (GoError.ftp a b c d e) _ _ _ _ => GoError.Code (GoError.ftp a b c d e)
  | GoError.ftp _ code _ _ _ => code
  | _ => 0

/-- Dynamic dispatch of `Message()`; the `ftp` case is the body of `ftpError.Message`
(client.go:92). -/
def GoError.Message : GoError → String
  | GoError.ftp (GoError.ftp a b c d e) _ _ _ _ => GoError.Message (GoError.ftp a b c d e)
  | GoError.ftp _ _ msg _ _ => msg
  | _ => ""

/-- Source: `ftpError.Error` (client.go:69). -/
def ftpError.Error (e : ftpError) : String := e.toError.Error

/-- Source: `ftpError.Temporary` (client.go:77). -/
def ftpError.Temporary (e : ftpError) : Bool :=
  e.temporary || transientNegativeCompletionReply e.code

/-- Source: `ftpError.Timeout` (client.go:81). -/
def ftpError.Timeout (e : ftpError) : Bool := e.timeout

/-- Source: `ftpError.Code` (client.go:85). -/
def ftpError.Code (e : ftpError) : Int := e.toError.Code

/-- Source: `ftpError.Message` (client.go:92). -/
def ftpError.Message (e : ftpError) : String := e.toError.Message

/-- Dynamic dispatch of `Temporary()` on an error value of the package's own type; other
values do not implement the package's `Error` interface and answer `false` here. -/
def GoError.Temporary : GoError → Bool
  | GoError.ftp err code msg timeout temporary =>
      ftpError.Temporary { err := err, code := code, msg := msg, timeout := timeout,
                           temporary := temporary }
  | _ => false

/-! ## ftp.go: host resolution -/

deriving instance DecidableEq for Except

/-- Source: `bytealg.IndexByteString`: index of the first occurrence of `c`, if any. -/
def indexByte (c : Char) : List Char → Option Nat
  | [] => none
  | x :: xs => if x = c then some 0 else (indexByte c xs).map (· + 1)

/-- Source: `bytealg.LastIndexByteString`: index of the last occurrence of `c`, if any. -/
def lastIndexByte (c : Char) : List Char → Option Nat
  | [] => none
  | x :: xs =>
    match lastIndexByte c xs with
    | some i => some (i + 1)
    | none => if x = c then some 0 else none

/-- First alternative of the `hasPort` pattern, `^[^:]+:\d+$`: a non-empty run without a
colon, one colon, a non-empty run of ASCII digits, and nothing else. -/
def matchHostColonDigits (s : List Char) : Bool :=
  match s.dropWhile (fun c => c != ':') with
  | ':' :: d => !(s.takeWhile (fun c => c != ':')).isEmpty && !d.isEmpty && d.all Char.isDigit
  | _ => false

/-- Second alternative of the `hasPort` pattern, `\]:\d+$`: the text ends in `]:` followed
by a non-empty run of ASCII digits. -/
def matchBracketColonDigits (s : List Char) : Bool :=
  !(s.reverse.takeWhile Char.isDigit).isEmpty &&
    (match s.reverse.dropWhile Char.isDigit with
     | ':' :: ']' :: _ => true
     | _ => false)

/-- Source: `hasPort.MatchString` with `hasPort = ^[^:]+:\d+$|\]:\d+$` (ftp.go:20). -/
def hasPort (host : String) : Bool :=
  matchHostColonDigits host.toList || matchBracketColonDigits host.toList

/-- Source: `net.SplitHostPort` of the Go standard library, on the characters of the
argument: the port starts after the last colon; a host in brackets must be closed right
before that colon; no other bracket may occur. -/
def SplitHostPort (hostport : List Char) : Except String (List Char × List Char) :=
  match lastIndexByte ':' hostport with
  | none => Except.error "missing port in address"
  | some i =>
    let finish (host : List Char) (j k : Nat) : Except String (List Char × List Char) :=
      if (indexByte '[' (hostport.drop j)).isSome then Except.error "unexpected '[' in address"
      else if (indexByte ']' (hostport.drop k)).isSome then
        Except.error "unexpected ']' in address"
      else Except.ok (host, hostport.drop (i + 1))
    if hostport.head? = some '[' then
      match indexByte ']' hostport with
      | none => Except.error "missing ']' in address"
      | some e =>
        if e + 1 = hostport.length then Except.error "missing port in address"
        else if e + 1 = i then finish ((hostport.take e).drop 1) 1 (e + 1)
        else if hostport.get? (e + 1) = some ':' then Except.error "too many colons in address"
        else Except.error "missing port in address"
    else
      if (indexByte ':' (hostport.take i)).isSome then Except.error "too many colons in address"
      else finish (hostport.take i) 0 0

/-- An address returned by the DNS collaborator: its text (`ip.String()`) and whether it is
an IPv4 address (`ip.To4() != nil`). -/
structure IPAddr where
  text : String
  is4 : Bool
deriving DecidableEq, Repr

/-- The `net` collaborator of `lookupHosts`: `ParseIP s` tells whether `net.ParseIP(s)` is
non-nil, `LookupIP` is the DNS query, failing with the text of its error. -/
structure NetEnv where
  ParseIP : String → Bool
  LookupIP : String → Except String (List IPAddr)

/-- Inner loop of `lookupHosts` over the addresses of one DNS answer (ftp.go:45-52). -/
def sortIPs (ipv6Lookup : Bool) (port : String) :
    List IPAddr → List String × List String → List String × List String
  | [], acc => acc
  | ip :: ips, (ret, ipv6) =>
    let ipAndPort := "[" ++ ip.text ++ "]:" ++ port
    if !ip.is4 && !ipv6Lookup then sortIPs ipv6Lookup port ips (ret, ipv6 ++ [ipAndPort])
    else sortIPs ipv6Lookup port ips (ret ++ [ipAndPort], ipv6)

/-- Result of `lookupHosts`: the names handed to the DNS collaborator, in order, and the
returned endpoints or error. -/
structure LookupResult where
  queries : List String
  result : Except GoError (List String)

/-- Main loop of `lookupHosts` (ftp.go:30-54), with the accumulators `ret`, `ipv6`. -/
def lookupLoop (env : NetEnv) (ipv6Lookup : Bool) :
    List String → List String → List String → List String → LookupResult
  | [], ret, ipv6, queries =>
    if ret.length = 0 ∧ ipv6.length > 0 then { queries := queries, result := Except.ok ipv6 }
    else { queries := queries, result := Except.ok ret }
  | spec :: rest, ret, ipv6, queries =>
    let host := if !hasPort spec then "[" ++ spec ++ "]:21" else spec
    match SplitHostPort host.toList with
    | Except.error _ =>
      { queries := queries, result := Except.error (GoError.plain ("invalid host \"" ++ spec ++ "\"")) }
    | Except.ok (hostnameOrIP, port) =>
      if env.ParseIP (String.mk hostnameOrIP) then
        lookupLoop env ipv6Lookup rest (ret ++ [host]) ipv6 queries
      else
        match env.LookupIP (String.mk hostnameOrIP) with
        | Except.error e =>
          { queries := queries ++ [String.mk hostnameOrIP],
            result := Except.error (GoError.plain
              ("error resolving host \"" ++ String.mk hostnameOrIP ++ "\": " ++ e)) }
        | Except.ok ips =>
          let acc := sortIPs ipv6Lookup (String.mk port) ips (ret, ipv6)
          lookupLoop env ipv6Lookup rest acc.1 acc.2 (queries ++ [String.mk hostnameOrIP])

/-- Source: `lookupHosts` (ftp.go:22). -/
def lookupHosts (env : NetEnv) (hosts : List String) (ipv6Lookup : Bool) : LookupResult :=
  if hosts.length = 0 then
    { queries := [], result := Except.error (GoError.plain "must specify at least one host") }
  else lookupLoop env ipv6Lookup hosts [] [] []

/-- Split a text at its dots. -/
def splitDots : List Char → List (List Char)
  | [] => [[]]
  | c :: cs =>
    if c = '.' then [] :: splitDots cs
    else
      match splitDots cs with
      | f :: fs => (c :: f) :: fs
      | [] => [[c]]

/-- Value of a run of decimal digits. -/
def digitsValue (f : List Char) : Nat :=
  f.foldl (fun acc c => acc * 10 + (c.toNat - '0'.toNat)) 0

/-- One field of a dotted quad: one to three ASCII digits, value at most 255, no leading
zero. -/
def isOctet (f : List Char) : Bool :=
  !f.isEmpty && decide (f.length ≤ 3) && f.all Char.isDigit && decide (digitsValue f ≤ 255) &&
    (decide (f.length = 1) || f.head? != some '0')

/-- A literal IPv4 address in dotted-quad form: exactly four octet fields separated by
dots. -/
def isIPv4Literal (h : String) : Bool :=
  decide ((splitDots h.toList).length = 4) && (splitDots h.toList).all isOctet

/-- A sample `net` collaborator that knows dotted quads only and has no DNS. -/
def literalNet : NetEnv :=
  { ParseIP := isIPv4Literal, LookupIP := fun _ => Except.error "no such host" }

/-! ## client.go: the connection pool -/

/-- The fields of `persistentConn` that the pool reads and writes. The struct is declared
outside the source tree; these three fields are the ones client.go and transfer.go touch. -/
structure persistentConn where
  idx : Int
  host : String
  broken : Bool
deriving DecidableEq, Repr

/-- Source: `type Config struct` (client.go:38), the fields that `newClient` and the pool
read. `Timeout` is in nanoseconds; `ServerLocation` is `none` for a nil pointer. -/
structure Config where
  User : String := ""
  Password : String := ""
  ConnectionsPerHost : Int := 0
  Timeout : Int := 0
  ServerLocation : Option String := none
  ActiveListenAddr : String := ""
deriving DecidableEq, Repr

/-- Source: `type Client struct` (client.go:13). `freeConnCh` is the content of the buffered
channel, next element to be received first, and `freeConnCap` its capacity. `allCons` is the
registry map, every entry stored under its own `idx`. `closeLog` is not a field of the
struct: it records, in order, the `idx` of every connection whose `close()` was called. -/
structure Client where
  config : Config
  hosts : List String
  freeConnCh : List persistentConn
  freeConnCap : Int
  numConnsPerHost : List (String × Int)
  allCons : List persistentConn
  connIdx : Nat
  rawConnIdx : Nat
  closed : Bool
  closeLog : List Int
deriving DecidableEq, Repr

/-- Read of a `map[string]int`: the zero value for a missing key. -/
def mapGet : List (String × Int) → String → Int
  | [], _ => 0
  | (k, v) :: rest, key => if k = key then v else mapGet rest key

/-- Write of a `map[string]int`: replaces the entry of the key, or adds one. -/
def mapSet : List (String × Int) → String → Int → List (String × Int)
  | [], key, val => [(key, val)]
  | (k, v) :: rest, key, val =>
    if k = key then (key, val) :: rest else (k, v) :: mapSet rest key val

/-- Source: `c.numConnsPerHost[host]++` / `--` under the lock. -/
def addConns (c : Client) (host : String) (d : Int) : Client :=
  { c with numConnsPerHost := mapSet c.numConnsPerHost host (mapGet c.numConnsPerHost host + d) }

/-- Source: `newClient` (client.go:99). -/
def newClient (config : Config) (hosts : List String) : Client :=
  let config := if config.ConnectionsPerHost ≤ 0 then { config with ConnectionsPerHost := 5 }
    else config
  let config := if config.Timeout ≤ 0 then { config with Timeout := 5000000000 } else config
  let config := if config.User = "" then { config with User := "anonymous" } else config
  let config := if config.Password = "" then { config with Password := "anonymous" } else config
  let config := if config.ServerLocation = none then { config with ServerLocation := some "UTC" }
    else config
  let config := if config.ActiveListenAddr = "" then { config with ActiveListenAddr := ":0" }
    else config
  { config := config
    hosts := hosts
    freeConnCh := []
    freeConnCap := (hosts.length : Int) * config.ConnectionsPerHost
    numConnsPerHost := []
    allCons := []
    connIdx := 0
    rawConnIdx := 0
    closed := false
    closeLog := [] }

/-- Source: `Client.removeConn` (client.go:224): delete the registry entry of the
connection's `idx`, then close the connection. -/
def removeConn (c : Client) (pconn : persistentConn) : Client :=
  { c with allCons := c.allCons.filter (fun q => q.idx != pconn.idx)
           closeLog := c.closeLog ++ [pconn.idx] }

/-- Source: `Client.Close` (client.go:128). Returns the pool afterwards and the error. The
registry is walked in list order; Go leaves the order of a map walk unspecified. -/
def Close (c : Client) : Client × GoError :=
  if c.closed then
    (c, ftpError.toError { err := GoError.plain "already closed" })
  else
    let c1 := { c with closed := true }
    let conns := c1.allCons
    (conns.foldl removeConn c1, GoError.nil)

/-- Source: `Client.numOpenConns` (client.go:156). -/
def numOpenConns (c : Client) : Int :=
  (c.numConnsPerHost.map Prod.snd).sum

/-- Outcomes of the network steps of one `openConn` call: the dial (with `ne.Temporary()`
of a failed dial that is a `net.Error`), the greeting read by `readResponse`, the login
(`logIn` or `logInTLS`) and `fetchFeatures`. -/
structure OpenEnv where
  dialErr : GoError := GoError.nil
  dialTemporary : Bool := false
  greetErr : GoError := GoError.nil
  greetCode : Int := 220
  greetMsg : String := ""
  loginErr : GoError := GoError.nil
  featuresErr : GoError := GoError.nil
deriving DecidableEq, Repr

/-- The error with which `openConn` jumps to its `Error:` label before taking the lock, or
nil when every network step succeeded (client.go:269-299). -/
def openConnNetErr (env : OpenEnv) : GoError :=
  if env.dialErr ≠ GoError.nil then
    ftpError.toError { err := env.dialErr, temporary := env.dialTemporary }
  else if env.greetErr ≠ GoError.nil then env.greetErr
  else if env.greetCode ≠ replyServiceReady then
    ftpError.toError { code := env.greetCode, msg := env.greetMsg }
  else if env.loginErr ≠ GoError.nil then env.loginErr
  else env.featuresErr

/-- Source: `Client.openConn` (client.go:244). Returns the pool afterwards, the connection
(`none` for a nil pointer) and the error. On every failure the half-built connection is
closed. -/
def openConn (c : Client) (env : OpenEnv) (idx : Int) (host : String) :
    Client × Option persistentConn × GoError :=
  let pconn : persistentConn := { idx := idx, host := host, broken := false }
  if openConnNetErr env ≠ GoError.nil then
    ({ c with closeLog := c.closeLog ++ [idx] }, none, openConnNetErr env)
  else if c.closed then
    ({ c with closeLog := c.closeLog ++ [idx] }, none,
      ftpError.toError { err := GoError.plain "client closed" })
  else if idx ≥ 0 then
    ({ c with allCons := pconn :: c.allCons.filter (fun q => q.idx != idx) }, some pconn,
      GoError.nil)
  else (c, some pconn, GoError.nil)

/-- How a call that acquires a connection ends: with a connection and a nil error, with a
nil connection and an error, waiting on the empty idle queue, or in a Go panic. -/
inductive AcquireResult where
  | conn (pconn : persistentConn) : AcquireResult
  | failed (err : GoError) : AcquireResult
  | blocked : AcquireResult
  | panicked (msg : String) : AcquireResult
deriving DecidableEq, Repr

/-- Eviction of a broken connection taken from the idle queue (client.go:171-174 and
213-216): the host counter is decremented, then `removeConn`. -/
def evictBroken (c : Client) (pconn : persistentConn) : Client :=
  removeConn (addConns c pconn.host (-1)) pconn

/-- First loop of `getIdleConn` (client.go:165-182): non-blocking receives from the idle
queue until it is empty or yields a connection that is not broken. -/
def firstLoop : List persistentConn → Client → Client × Option persistentConn
  | [], c => ({ c with freeConnCh := [] }, none)
  | pconn :: rest, c =>
    if pconn.broken then firstLoop rest (evictBroken { c with freeConnCh := rest } pconn)
    else ({ c with freeConnCh := rest }, some pconn)

/-- Host scan of `getIdleConn` (client.go:188-194): the value of `host` after the loop
`for i := idx; i < idx+len(c.hosts); i++`, the empty string when no host qualifies. -/
def pickHost (c : Client) (idx : Nat) : String :=
  match (List.range' idx c.hosts.length).find? (fun i =>
      decide (mapGet c.numConnsPerHost (c.hosts.getD (i % c.hosts.length) "")
        < c.config.ConnectionsPerHost)) with
  | some i => c.hosts.getD (i % c.hosts.length) ""
  | none => ""

/-- Branch of `getIdleConn` taken under the global cap (client.go:185-208): advance the
cursor, pick a host, reserve its slot, open, and give the slot back when opening fails. -/
def openNew (c : Client) (env : OpenEnv) : Client × AcquireResult :=
  let c1 := { c with connIdx := c.connIdx + 1 }
  let idx := c1.connIdx
  let host := pickHost c1 idx
  if host = "" then (c1, AcquireResult.panicked "this shouldn't be possible")
  else
    match openConn (addConns c1 host 1) env (idx : Int) host with
    | (c2, some pconn, _) => (c2, AcquireResult.conn pconn)
    | (c2, none, err) => (addConns c2 host (-1), AcquireResult.failed err)

/-- Second loop of `getIdleConn` (client.go:183-221), entered with the idle queue `queue`:
open a connection when under the global cap, else receive from the idle queue, evicting
broken connections; with the queue empty the receive blocks. -/
def secondLoop (env : OpenEnv) : List persistentConn → Client → Client × AcquireResult
  | queue, c =>
    if numOpenConns c < (c.hosts.length : Int) * c.config.ConnectionsPerHost then openNew c env
    else
      match queue with
      | [] => ({ c with freeConnCh := [] }, AcquireResult.blocked)
      | pconn :: rest =>
        if pconn.broken then
          secondLoop env rest (evictBroken { c with freeConnCh := rest } pconn)
        else ({ c with freeConnCh := rest }, AcquireResult.conn pconn)

/-- Source: `Client.getIdleConn` (client.go:164). -/
def getIdleConn (c : Client) (env : OpenEnv) : Client × AcquireResult :=
  match firstLoop c.freeConnCh c with
  | (c1, some pconn) => (c1, AcquireResult.conn pconn)
  | (c1, none) => secondLoop env c1.freeConnCh c1

/-- A caller blocked in the receive of the second loop (client.go:210) that goes on once the
idle queue is not empty: it takes the head, and after evicting a broken one continues with
the second loop. -/
def wakeWaiter (c : Client) (env : OpenEnv) : Client × AcquireResult :=
  match c.freeConnCh with
  | [] => (c, AcquireResult.blocked)
  | pconn :: rest =>
    if pconn.broken then secondLoop env rest (evictBroken { c with freeConnCh := rest } pconn)
    else ({ c with freeConnCh := rest }, AcquireResult.conn pconn)

/-- Source: `Client.returnConn` (client.go:231): send on the buffered channel; `none` when
the channel is full and the send blocks. -/
def returnConn (c : Client) (pconn : persistentConn) : Option Client :=
  if (c.freeConnCh.length : Int) < c.freeConnCap then
    some { c with freeConnCh := c.freeConnCh ++ [pconn] }
  else none

/-- Source: `Client.OpenRawConn` (client.go:235). Indexing `c.hosts[idx%len(c.hosts)]`
panics on an empty host list. -/
def OpenRawConn (c : Client) (env : OpenEnv) : Client × AcquireResult :=
  if c.hosts.length = 0 then (c, AcquireResult.panicked "integer divide by zero")
  else
    let idx := c.rawConnIdx
    let host := c.hosts.getD (idx % c.hosts.length) ""
    match openConn { c with rawConnIdx := c.rawConnIdx + 1 } env (-((idx : Int) + 1)) host with
    | (c1, some pconn, _) => (c1, AcquireResult.conn pconn)
    | (c1, none, err) => (c1, AcquireResult.failed err)

/-- The connections out on loan after a call that ended with `r`. -/
def lentAfter (r : AcquireResult) (lent : List persistentConn) : List persistentConn :=
  match r with
  | AcquireResult.conn pconn => pconn :: lent
  | _ => lent

/-- Pool states reachable from `newClient config hosts`, together with the connections
currently on loan to callers. A borrower may set `broken` on its connection before it gives
it back, and gives each connection back at most once. -/
inductive Reach (config : Config) (hosts : List String) : Client → List persistentConn → Prop
  | init : Reach config hosts (newClient config hosts) []
  | acquire {c : Client} {lent : List persistentConn} (env : OpenEnv) :
      Reach config hosts c lent →
      Reach config hosts (getIdleConn c env).1 (lentAfter (getIdleConn c env).2 lent)
  | wake {c : Client} {lent : List persistentConn} (env : OpenEnv) :
      Reach config hosts c lent →
      Reach config hosts (wakeWaiter c env).1 (lentAfter (wakeWaiter c env).2 lent)
  | release {c c1 : Client} {lent : List persistentConn} (pconn : persistentConn)
      (broken : Bool) :
      Reach config hosts c lent → pconn ∈ lent →
      returnConn c { pconn with broken := broken } = some c1 →
      Reach config hosts c1 (lent.erase pconn)
  | raw {c : Client} {lent : List persistentConn} (env : OpenEnv) :
      Reach config hosts c lent → Reach config hosts (OpenRawConn c env).1 lent
  | close {c : Client} {lent : List persistentConn} :
      Reach config hosts c lent → Reach config hosts (Close c).1 lent

/-- The cap invariant of the pool for the per-host limit `L` and the host list `hosts`: the
pool still has that limit and that list, the limit is positive, no host counter exceeds it,
and the sum of the counters does not exceed `len(hosts) * L`. -/
def CapInv (L : Int) (hosts : List String) (c : Client) : Prop :=
  c.config.ConnectionsPerHost = L ∧ c.hosts = hosts ∧ 0 < L ∧
  (∀ h : String, mapGet c.numConnsPerHost h ≤ L) ∧
  numOpenConns c ≤ (hosts.length : Int) * L

/-- The accounting invariant of the pool, for the idle queue `queue` and the connections
`lent` on loan: the sum of the host counters is the size of the registry; the registry has
one entry per `idx`, none beyond the cursor `connIdx`; every connection idle or on loan is
registered; and no connection is idle or on loan twice. -/
def AcctInvQ (queue : List persistentConn) (c : Client) (lent : List persistentConn) : Prop :=
  numOpenConns c = (c.allCons.length : Int) ∧
  (c.allCons.map persistentConn.idx).Nodup ∧
  (∀ p ∈ c.allCons, p.idx ≤ (c.connIdx : Int)) ∧
  (∀ p ∈ queue ++ lent, p.idx ∈ c.allCons.map persistentConn.idx) ∧
  ((queue ++ lent).map persistentConn.idx).Nodup

/-- The accounting invariant of a pool state with its own idle queue. -/
def AcctInv (c : Client) (lent : List persistentConn) : Prop :=
  AcctInvQ c.freeConnCh c lent

/-- The host invariant of the pool, for the idle queue `queue` and the connections `lent`
on loan: the host list is `hosts`, the counter map has one entry per key and only hosts as
keys, and every connection idle or on loan belongs to a host of the list. -/
def HostInvQ (hosts : List String) (queue : List persistentConn) (c : Client)
    (lent : List persistentConn) : Prop :=
  c.hosts = hosts ∧
  (c.numConnsPerHost.map Prod.fst).Nodup ∧
  (∀ k ∈ c.numConnsPerHost.map Prod.fst, k ∈ hosts) ∧
  (∀ p ∈ queue ++ lent, p.host ∈ hosts)

/-- The host invariant of a pool state with its own idle queue. -/
def HostInv (hosts : List String) (c : Client) (lent : List persistentConn) : Prop :=
  HostInvQ hosts c.freeConnCh c lent

/-! ## transfer.go: the transfer engine -/

/-- Go `int64` arithmetic: the value of an integer after wrapping into 64 bits. -/
def wrapInt64 (x : Int) : Int := (x + 2 ^ 63) % 2 ^ 64 - 2 ^ 63

/-- Source: the `%s` verb of `fmt` applied to an `error`. -/
def fmtS (err : GoError) : String :=
  match err with
  | GoError.nil => "%!s(<nil>)"
  | e => e.Error

/-- What a transfer does that is visible outside the function: each call of
`transferFromOffset` with its offset, each borrow from the pool and each hand-back with the
`broken` flag of the connection, each command line passed to `sendCommand` or
`sendCommandExpected`, each byte copy with its count, and each `Seek` on the source. -/
inductive Event where
  | attempt (offset : Int) : Event
  | acquire : Event
  | release (broken : Bool) : Event
  | command (line : String) : Event
  | copy (n : Int) : Event
  | seek (offset : Int) : Event
deriving DecidableEq, Repr

/-- How a call ends: it returns an error value (nil for success), it panics, or the
environment script is used up while its loop is still running. -/
inductive Ending where
  | returned (err : GoError) : Ending
  | panicked (msg : String) : Ending
  | unfinished : Ending
deriving DecidableEq, Repr

/-- Outcomes of the steps of one `transferFromOffset` call that leave the function: the
borrow from the pool, `setType`, the reply check of `REST`, `prepareDataConn`, the reply
check of `STOR`/`RETR`, the data-connection opener, `io.Copy` (count and error) and the
final `readResponse` (error, code, message). -/
structure TransferEnv where
  acquireErr : GoError := GoError.nil
  setTypeErr : GoError := GoError.nil
  restErr : GoError := GoError.nil
  prepareErr : GoError := GoError.nil
  cmdErr : GoError := GoError.nil
  connGetterErr : GoError := GoError.nil
  copyN : Int := 0
  copyErr : GoError := GoError.nil
  respErr : GoError := GoError.nil
  respCode : Int := 226
  respMsg : String := ""
deriving DecidableEq, Repr

/-- How `transferFromOffset` ends: with its two results, or in a panic. -/
inductive TransferEnding where
  | returned (n : Int) (err : GoError) : TransferEnding
  | panicked (msg : String) : TransferEnding
deriving DecidableEq, Repr

/-- Last part of `transferFromOffset` (transfer.go:152-170): the byte copy, which marks the
connection broken when it fails, then the final reply. `ev` is the run so far. -/
def transferCopy (env : TransferEnv) (ev : List Event) : List Event × TransferEnding :=
  if env.copyErr ≠ GoError.nil then
    (ev ++ [Event.copy env.copyN, Event.release true],
      TransferEnding.returned env.copyN env.copyErr)
  else if env.respErr ≠ GoError.nil then
    (ev ++ [Event.copy env.copyN, Event.release false],
      TransferEnding.returned env.copyN env.respErr)
  else if !positiveCompletionReply env.respCode then
    (ev ++ [Event.copy env.copyN, Event.release false],
      TransferEnding.returned env.copyN
        (ftpError.toError { code := env.respCode, msg := env.respMsg }))
  else
    (ev ++ [Event.copy env.copyN, Event.release false],
      TransferEnding.returned env.copyN GoError.nil)

/-- Middle part of `transferFromOffset` (transfer.go:137-151): the `STOR` or `RETR` command
and the opening of the data connection. `ev` is the run so far. -/
def transferCommand (env : TransferEnv) (path cmd : String) (ev : List Event) :
    List Event × TransferEnding :=
  if env.cmdErr ≠ GoError.nil then
    (ev ++ [Event.command (cmd ++ " " ++ path), Event.release false],
      TransferEnding.returned 0 env.cmdErr)
  else if env.connGetterErr ≠ GoError.nil then
    (ev ++ [Event.command (cmd ++ " " ++ path), Event.release false],
      TransferEnding.returned 0 env.connGetterErr)
  else transferCopy env (ev ++ [Event.command (cmd ++ " " ++ path)])

/-- The `REST` command of `transferFromOffset` (transfer.go:118-119), sent for a positive
offset only. -/
def restCommand (offset : Int) : List Event :=
  if offset > 0 then [Event.command ("REST " ++ toString offset)] else []

/-- Source: `Client.transferFromOffset` (transfer.go:109). `destNil` / `srcNil` tell whether
the `dest` / `src` argument is the nil interface. The deferred `returnConn` runs on every
exit after a successful borrow. -/
def transferFromOffset (env : TransferEnv) (path : String) (destNil srcNil : Bool)
    (offset : Int) : List Event × TransferEnding :=
  if env.acquireErr ≠ GoError.nil then
    ([Event.attempt offset], TransferEnding.returned 0 env.acquireErr)
  else if env.setTypeErr ≠ GoError.nil then
    ([Event.attempt offset, Event.acquire, Event.release false],
      TransferEnding.returned 0 env.setTypeErr)
  else if offset > 0 ∧ env.restErr ≠ GoError.nil then
    ([Event.attempt offset, Event.acquire] ++ restCommand offset ++ [Event.release false],
      TransferEnding.returned 0 env.restErr)
  else if env.prepareErr ≠ GoError.nil then
    ([Event.attempt offset, Event.acquire] ++ restCommand offset ++ [Event.release false],
      TransferEnding.returned 0 env.prepareErr)
  else if destNil && !srcNil then
    transferCommand env path "STOR" ([Event.attempt offset, Event.acquire] ++ restCommand offset)
  else if !destNil && srcNil then
    transferCommand env path "RETR" ([Event.attempt offset, Event.acquire] ++ restCommand offset)
  else
    ([Event.attempt offset, Event.acquire] ++ restCommand offset ++ [Event.release false],
      TransferEnding.panicked "this shouldn't happen")

/-- Source: `strconv.ParseInt(s, 10, 64)` of the Go standard library: an optional sign, then
one or more ASCII digits, the value within the range of `int64`. -/
def parseInt64 (s : String) : Option Int :=
  let digits : List Char :=
    match s.toList with
    | '-' :: r => r
    | '+' :: r => r
    | cs => cs
  let v : Int := if s.toList.head? = some '-' then -(digitsValue digits : Int)
    else (digitsValue digits : Int)
  if digits.isEmpty || !digits.all Char.isDigit then none
  else if v < -(2 ^ 63) ∨ v ≥ 2 ^ 63 then none
  else some v

/-- Outcomes of the steps of one `size` call that leave the function: the borrow from the
pool, `hasFeature("SIZE")`, `setType`, and `sendCommand` (error, code, message). -/
structure SizeEnv where
  acquireErr : GoError := GoError.nil
  hasSize : Bool := true
  setTypeErr : GoError := GoError.nil
  sendErr : GoError := GoError.nil
  code : Int := 213
  msg : String := ""
deriving DecidableEq, Repr

/-- Source: `Client.size` (transfer.go:173). Returns the events and the two results. -/
def size (env : SizeEnv) (path : String) : List Event × Int × GoError :=
  if env.acquireErr ≠ GoError.nil then ([], -1, env.acquireErr)
  else if !env.hasSize then ([Event.acquire, Event.release false], -1, GoError.nil)
  else if env.setTypeErr ≠ GoError.nil then
    ([Event.acquire, Event.release false], 0, env.setTypeErr)
  else
    let ev := [Event.acquire, Event.command ("SIZE " ++ path), Event.release false]
    if env.sendErr ≠ GoError.nil then (ev, -1, env.sendErr)
    else if env.code ≠ replyFileStatus then (ev, -1, GoError.nil)
    else
      match parseInt64 env.msg with
      | none => (ev, -1, GoError.nil)
      | some n => (ev, n, GoError.nil)

/-- Outcomes of the steps of one `canResume` call that leave the function: the borrow from
the pool and `hasFeatureWithArg("REST", "STREAM")`. -/
structure ResumeEnv where
  acquireErr : GoError := GoError.nil
  restStream : Bool := false
deriving DecidableEq, Repr

/-- Source: `Client.canResume` (transfer.go:202). -/
def canResume (env : ResumeEnv) : Bool :=
  if env.acquireErr ≠ GoError.nil then false else env.restStream

/-- What one iteration of a transfer loop leads to: another iteration, the `break`, or the
end of the call. `bytesSoFar` and `err` are the variables of the enclosing function. -/
inductive LoopStep where
  | again (bytesSoFar : Int) (err : GoError) : LoopStep
  | done (bytesSoFar : Int) : LoopStep
  | ended (e : Ending) : LoopStep
deriving DecidableEq, Repr

/-- One iteration of the loop of `Retrieve` (transfer.go:17-30). -/
def retrieveStep (env : TransferEnv) (path : String) (destNil : Bool) (resumable : Bool)
    (bytesSoFar : Int) : List Event × LoopStep :=
  match transferFromOffset env path destNil true bytesSoFar with
  | (ev, TransferEnding.panicked m) => (ev, LoopStep.ended (Ending.panicked m))
  | (ev, TransferEnding.returned n err) =>
    if err = GoError.nil then (ev, LoopStep.done (wrapInt64 (bytesSoFar + n)))
    else if n = 0 then (ev, LoopStep.ended (Ending.returned err))
    else if !resumable then
      (ev, LoopStep.ended (Ending.returned (ftpError.toError
        { err := GoError.plain (fmtS err ++ " (can't resume)"), temporary := true })))
    else (ev, LoopStep.again (wrapInt64 (bytesSoFar + n)) err)

/-- The loop of `Retrieve` (transfer.go:17-30), one environment per iteration. -/
def retrieveLoop (path : String) (destNil : Bool) (resumable : Bool) :
    List TransferEnv → Int → List Event × LoopStep
  | [], _ => ([], LoopStep.ended Ending.unfinished)
  | env :: rest, bytesSoFar =>
    match retrieveStep env path destNil resumable bytesSoFar with
    | (ev, LoopStep.again b _) =>
      (ev ++ (retrieveLoop path destNil resumable rest b).1,
        (retrieveLoop path destNil resumable rest b).2)
    | r => r

/-- Environment of one `Retrieve` call: the `size` call, the `canResume` call, and one
record per call of `transferFromOffset`. -/
structure RetrieveEnv where
  size : SizeEnv := {}
  resume : ResumeEnv := {}
  attempts : List TransferEnv := []
deriving DecidableEq, Repr

/-- Source: `Client.Retrieve` (transfer.go:10). -/
def Retrieve (env : RetrieveEnv) (path : String) (destNil : Bool) : List Event × Ending :=
  match size env.size path with
  | (ev0, sz, err) =>
    if err ≠ GoError.nil then (ev0, Ending.returned err)
    else
      let resumable := canResume env.resume
      let ev1 := if env.resume.acquireErr ≠ GoError.nil then ev0
        else ev0 ++ [Event.acquire, Event.release false]
      match retrieveLoop path destNil resumable env.attempts 0 with
      | (ev, LoopStep.done bytesSoFar) =>
        if sz ≠ -1 ∧ bytesSoFar ≠ sz then
          (ev1 ++ ev, Ending.returned (ftpError.toError
            { err := GoError.plain ("expected " ++ toString sz ++ " bytes, got "
                ++ toString bytesSoFar), temporary := true }))
        else (ev1 ++ ev, Ending.returned GoError.nil)
      | (ev, LoopStep.ended e) => (ev1 ++ ev, e)
      | (ev, LoopStep.again _ _) => (ev1 ++ ev, Ending.unfinished)

/-- The `src` argument of `Store`: the nil interface, a reader that is not an `io.Seeker`,
or a reader that is one. -/
inductive Source where
  | nilReader : Source
  | reader : Source
  | readSeeker : Source
deriving DecidableEq, Repr

/-- Environment of one iteration of the loop of `Store`: the `size` re-query and the `Seek`
of the resume block (consulted only when the block runs) and the transfer. -/
structure StoreStepEnv where
  size : SizeEnv := {}
  seekErr : GoError := GoError.nil
  transfer : TransferEnv := {}
deriving DecidableEq, Repr

/-- The transfer part of one iteration of the loop of `Store` (transfer.go:80-94). -/
def storeAttempt (env : TransferEnv) (path : String) (src : Source) (resumable : Bool)
    (bytesSoFar : Int) : List Event × LoopStep :=
  match transferFromOffset env path true (decide (src = Source.nilReader)) bytesSoFar with
  | (ev, TransferEnding.panicked m) => (ev, LoopStep.ended (Ending.panicked m))
  | (ev, TransferEnding.returned n err) =>
    if err = GoError.nil then (ev, LoopStep.done (wrapInt64 (bytesSoFar + n)))
    else if n = 0 then
      (ev, LoopStep.ended (Ending.returned (ftpError.toError { err := err, temporary := true })))
    else if !resumable then
      (ev, LoopStep.ended (Ending.returned (ftpError.toError
        { err := GoError.plain (fmtS err ++ " (can't resume)"), temporary := true })))
    else (ev, LoopStep.again (wrapInt64 (bytesSoFar + n)) err)

/-- One iteration of the loop of `Store` (transfer.go:51-95): the resume block when
`bytesSoFar > 0`, then the transfer. Calling `Seek` on a source that is no `io.Seeker`
dereferences the nil `seeker`. -/
def storeStep (env : StoreStepEnv) (path : String) (src : Source) (resumable : Bool)
    (bytesSoFar : Int) (err : GoError) : List Event × LoopStep :=
  if bytesSoFar > 0 then
    match size env.size path with
    | (ev0, sz, sizeErr) =>
      if sizeErr ≠ GoError.nil then
        (ev0, LoopStep.ended (Ending.returned
          (ftpError.toError { err := sizeErr, temporary := true })))
      else if sz = -1 then
        (ev0, LoopStep.ended (Ending.returned (ftpError.toError
          { err := GoError.plain (fmtS err ++ " (resume failed)"), temporary := true })))
      else if src ≠ Source.readSeeker then
        (ev0, LoopStep.ended (Ending.panicked "invalid memory address or nil pointer dereference"))
      else if env.seekErr ≠ GoError.nil then
        (ev0 ++ [Event.seek sz], LoopStep.ended (Ending.returned (ftpError.toError
          { err := GoError.plain (fmtS err ++ " (resume failed)"), temporary := true })))
      else
        (ev0 ++ [Event.seek sz] ++ (storeAttempt env.transfer path src resumable sz).1,
          (storeAttempt env.transfer path src resumable sz).2)
  else storeAttempt env.transfer path src resumable bytesSoFar

/-- The loop of `Store` (transfer.go:51-95), one environment per iteration. -/
def storeLoop (path : String) (src : Source) (resumable : Bool) :
    List StoreStepEnv → Int → GoError → List Event × LoopStep
  | [], _, _ => ([], LoopStep.ended Ending.unfinished)
  | env :: rest, bytesSoFar, err =>
    match storeStep env path src resumable bytesSoFar err with
    | (ev, LoopStep.again b e) =>
      (ev ++ (storeLoop path src resumable rest b e).1,
        (storeLoop path src resumable rest b e).2)
    | r => r

/-- Environment of one `Store` call: the `canResume` call (made only with a single host),
one record per iteration, and the final `size` call. -/
structure StoreEnv where
  resume : ResumeEnv := {}
  steps : List StoreStepEnv := []
  finalSize : SizeEnv := {}
deriving DecidableEq, Repr

/-- Source: `Client.Store` (transfer.go:40). `hosts` is `c.hosts`. -/
def Store (hosts : List String) (env : StoreEnv) (path : String) (src : Source) :
    List Event × Ending :=
  let asked := decide (hosts.length = 1)
  let resumable0 := asked && canResume env.resume
  let ev0 : List Event :=
    if asked ∧ env.resume.acquireErr = GoError.nil then [Event.acquire, Event.release false]
    else []
  let resumable := if src ≠ Source.readSeeker then false else resumable0
  match storeLoop path src resumable env.steps 0 GoError.nil with
  | (ev, LoopStep.done bytesSoFar) =>
    match size env.finalSize path with
    | (ev1, sz, err) =>
      if err ≠ GoError.nil then (ev0 ++ ev ++ ev1, Ending.returned err)
      else if sz ≠ -1 ∧ sz ≠ bytesSoFar then
        (ev0 ++ ev ++ ev1, Ending.returned (ftpError.toError
          { err := GoError.plain ("sent " ++ toString bytesSoFar ++ " bytes, but size is "
              ++ toString sz), temporary := true }))
      else (ev0 ++ ev ++ ev1, Ending.returned GoError.nil)
  | (ev, LoopStep.ended e) => (ev0 ++ ev, e)
  | (ev, LoopStep.again _ _) => (ev0 ++ ev, Ending.unfinished)

/-- The offsets of the calls of `transferFromOffset` in a run, in order. -/
def attemptOffsets : List Event → List Int
  | [] => []
  | Event.attempt o :: rest => o :: attemptOffsets rest
  | _ :: rest => attemptOffsets rest

/-- The offsets of the `Seek` calls in a run, in order. -/
def seekOffsets : List Event → List Int
  | [] => []
  | Event.seek o :: rest => o :: seekOffsets rest
  | _ :: rest => seekOffsets rest

/-- The byte count that a call of `transferFromOffset` returns (0 when it panics). -/
def returnedCount (r : List Event × TransferEnding) : Int :=
  match r.2 with
  | TransferEnding.returned n _ => n
  | TransferEnding.panicked _ => 0

/-- The byte counts returned by the successive attempts of a `Retrieve`, when they are made
at the offsets `offs`. -/
def retrieveCounts (env : RetrieveEnv) (path : String) (destNil : Bool) (offs : List Int) :
    List Int :=
  List.zipWith (fun e o => returnedCount (transferFromOffset e path destNil true o))
    env.attempts offs

/-- The environment of a download that is resumed once: `SIZE` answers 213 with "100", the
server advertises `REST STREAM`, the first copy breaks with the error `e` after 40 bytes,
the second copies 60 bytes and ends with the reply 226. -/
def resumeScenario (e : GoError) : RetrieveEnv :=
  { size := { msg := "100" }
    resume := { restStream := true }
    attempts := [{ copyN := 40, copyErr := e }, { copyN := 60 }] }

end ftp

/-! # Theorems -/

namespace ftp

/-! ## Reply classification -/

/-- Go's truncating division by 100 yields a positive quotient `k` exactly on the hundred
starting at `100 * k`. -/
theorem tdiv_hundred_eq (c k : Int) (hk : 0 < k) :
    Int.tdiv c 100 = k ↔ 100 * k ≤ c ∧ c < 100 * k + 100 := by
  rcases le_or_lt 0 c with h | h
  · rw [Int.tdiv_eq_ediv h (by norm_num)]; omega
  · have h1 : Int.tdiv c 100 = -Int.tdiv (-c) 100 := by
      rw [← Int.neg_tdiv, neg_neg]
    have h2 : 0 ≤ Int.tdiv (-c) 100 := Int.tdiv_nonneg (by omega) (by norm_num)
    omega

theorem transientNegativeCompletionReply_iff (x : Int) :
    transientNegativeCompletionReply x = true ↔ (400 ≤ x ∧ x ≤ 499) := by
  simp only [transientNegativeCompletionReply, decide_eq_true_eq]
  rw [tdiv_hundred_eq x 4 (by norm_num)]; omega

theorem positiveCompletionReply_iff (x : Int) :
    positiveCompletionReply x = true ↔ (200 ≤ x ∧ x ≤ 299) := by
  simp only [positiveCompletionReply, decide_eq_true_eq]
  rw [tdiv_hundred_eq x 2 (by norm_num)]; omega

/-- C7. Reply classification: an `ftpError` is `Temporary()` exactly when its explicit
`temporary` flag is set or its `code` field lies in 400..499; `transientNegativeCompletionReply`
holds exactly on 400..499 and `positiveCompletionReply` exactly on 200..299; so code 452 is
temporary, code 550 without the flag is not, and code 250 is a success. -/
theorem reply_classification (e : ftpError) (c : Int) :
    (e.Temporary = true ↔ (e.temporary = true ∨ (400 ≤ e.code ∧ e.code ≤ 499))) ∧
    (transientNegativeCompletionReply c = true ↔ (400 ≤ c ∧ c ≤ 499)) ∧
    (positiveCompletionReply c = true ↔ (200 ≤ c ∧ c ≤ 299)) ∧
    ftpError.Temporary { code := 452 } = true ∧
    ftpError.Temporary { code := 550 } = false ∧
    positiveCompletionReply 250 = true := by
  have ht := transientNegativeCompletionReply_iff
  have hp := positiveCompletionReply_iff
  refine ⟨?_, ht c, hp c, by decide, by decide, by decide⟩
  simp only [ftpError.Temporary, Bool.or_eq_true]
  rw [ht e.code]

/-! ## Host resolution -/

theorem indexByte_eq_none (c : Char) (l : List Char) (h : c ∉ l) : indexByte c l = none := by
  induction l with
  | nil => rfl
  | cons x xs ih =>
    have hx : x ≠ c := fun e => h (by simp [e])
    have hxs : c ∉ xs := fun e => h (by simp [e])
    simp [indexByte, hx, ih hxs]

theorem indexByte_append_cons (c : Char) (l r : List Char) (h : c ∉ l) :
    indexByte c (l ++ c :: r) = some l.length := by
  induction l with
  | nil => simp [indexByte]
  | cons x xs ih =>
    have hx : x ≠ c := fun e => h (by simp [e])
    have hxs : c ∉ xs := fun e => h (by simp [e])
    simp [indexByte, hx, ih hxs]

theorem lastIndexByte_eq_none (c : Char) (l : List Char) (h : c ∉ l) :
    lastIndexByte c l = none := by
  induction l with
  | nil => rfl
  | cons x xs ih =>
    have hx : x ≠ c := fun e => h (by simp [e])
    have hxs : c ∉ xs := fun e => h (by simp [e])
    simp [lastIndexByte, hx, ih hxs]

theorem lastIndexByte_append_cons (c : Char) (l r : List Char) (h : c ∉ r) :
    lastIndexByte c (l ++ c :: r) = some l.length := by
  induction l with
  | nil => simp [lastIndexByte, lastIndexByte_eq_none c r h]
  | cons x xs ih => simp [lastIndexByte, ih]

theorem splitDots_cover (cs : List Char) (c : Char) (h : c ∈ cs) :
    c = '.' ∨ ∃ f ∈ splitDots cs, c ∈ f := by
  induction cs with
  | nil => simp at h
  | cons x xs ih =>
    by_cases hx : x = '.'
    · rcases List.mem_cons.1 h with e | e
      · left; rw [e, hx]
      · rcases ih e with h1 | ⟨f, hf, hc⟩
        · left; exact h1
        · right; exact ⟨f, by simp [splitDots, hx, hf], hc⟩
    · cases hs : splitDots xs with
      | nil =>
        rcases List.mem_cons.1 h with e | e
        · right; exact ⟨[x], by simp [splitDots, hx, hs], by simp [e]⟩
        · rcases ih e with h1 | ⟨f, hf, _⟩
          · left; exact h1
          · rw [hs] at hf; simp at hf
      | cons f fs =>
        rcases List.mem_cons.1 h with e | e
        · right; exact ⟨x :: f, by simp [splitDots, hx, hs], by simp [e]⟩
        · rcases ih e with h1 | ⟨g, hg, hc⟩
          · left; exact h1
          · rw [hs] at hg
            rcases List.mem_cons.1 hg with e2 | e2
            · right; exact ⟨x :: f, by simp [splitDots, hx, hs], by simp [← e2, hc]⟩
            · right; exact ⟨g, by simp [splitDots, hx, hs, e2], hc⟩

/-- Every character of a dotted quad is an ASCII digit or a dot. -/
theorem isIPv4Literal_chars (h : String) (hlit : isIPv4Literal h = true) (c : Char)
    (hc : c ∈ h.toList) : c = '.' ∨ c.isDigit = true := by
  simp only [isIPv4Literal, Bool.and_eq_true, List.all_eq_true] at hlit
  rcases splitDots_cover h.toList c hc with h1 | ⟨f, hf, hcf⟩
  · left; exact h1
  · right
    have := hlit.2 f hf
    simp only [isOctet, Bool.and_eq_true, List.all_eq_true] at this
    exact this.1.1.2 c hcf

theorem isIPv4Literal_ne_nil (h : String) (hlit : isIPv4Literal h = true) : h.toList ≠ [] := by
  intro e
  unfold isIPv4Literal at hlit
  rw [e] at hlit
  simp [splitDots] at hlit
theorem matchHostColonDigits_no_colon (cs : List Char) (hcolon : ':' ∉ cs) :
    matchHostColonDigits cs = false := by
  have h1 : cs.dropWhile (fun c => c != ':') = [] := by
    rw [List.dropWhile_eq_nil_iff]
    intro x hx
    have : x ≠ ':' := fun e => hcolon (e ▸ hx)
    simpa using this
  simp [matchHostColonDigits, h1]

theorem matchBracketColonDigits_no_colon (cs : List Char) (hcolon : ':' ∉ cs) :
    matchBracketColonDigits cs = false := by
  unfold matchBracketColonDigits
  cases hd : cs.reverse.dropWhile Char.isDigit with
  | nil => simp
  | cons x xs =>
    have hx : x ∈ cs := by
      have : x ∈ cs.reverse.dropWhile Char.isDigit := by rw [hd]; simp
      exact List.mem_reverse.1 ((List.dropWhile_sublist _).subset this)
    have : x ≠ ':' := fun e => hcolon (e ▸ hx)
    cases xs with
    | nil => simp [this]
    | cons y ys => simp [this]

theorem matchHostColonDigits_host_port (hs ps : List Char) (hcolon : ':' ∉ hs) (hne : hs ≠ [])
    (pne : ps ≠ []) (pd : ps.all Char.isDigit = true) :
    matchHostColonDigits (hs ++ ':' :: ps) = true := by
  have hall : ∀ x ∈ hs, (x != ':') = true := by
    intro x hx
    have : x ≠ ':' := fun e => hcolon (e ▸ hx)
    simpa using this
  have h1 : (hs ++ ':' :: ps).dropWhile (fun c => c != ':') = ':' :: ps := by
    rw [List.dropWhile_append_of_pos hall]
    simp [List.dropWhile]
  have h2 : (hs ++ ':' :: ps).takeWhile (fun c => c != ':') = hs := by
    rw [List.takeWhile_append_of_pos hall]
    simp [List.takeWhile]
  unfold matchHostColonDigits
  rw [h1, h2]
  cases hs with
  | nil => exact absurd rfl hne
  | cons a as =>
    cases ps with
    | nil => exact absurd rfl pne
    | cons b bs => simpa using pd

theorem SplitHostPort_bracketed (hs ps : List Char)
    (hh : ∀ c ∈ hs, c ≠ ':' ∧ c ≠ '[' ∧ c ≠ ']')
    (hp : ∀ c ∈ ps, c ≠ ':' ∧ c ≠ '[' ∧ c ≠ ']') :
    SplitHostPort ('[' :: (hs ++ ']' :: ':' :: ps)) = Except.ok (hs, ps) := by
  have e1 : lastIndexByte ':' ('[' :: (hs ++ ']' :: ':' :: ps)) = some (hs.length + 2) := by
    have := lastIndexByte_append_cons ':' ('[' :: (hs ++ [']'])) ps (fun h => (hp _ h).1 rfl)
    simpa using this
  have e2 : indexByte ']' ('[' :: (hs ++ ']' :: ':' :: ps)) = some (hs.length + 1) := by
    have := indexByte_append_cons ']' ('[' :: hs) (':' :: ps) (by
      intro h
      rcases List.mem_cons.1 h with e | e
      · exact absurd e (by decide)
      · exact (hh _ e).2.2 rfl)
    simpa using this
  have e3 : indexByte '[' (hs ++ ']' :: ':' :: ps) = none := by
    apply indexByte_eq_none
    intro h
    rcases List.mem_append.1 h with e | e
    · exact (hh _ e).2.1 rfl
    · rcases List.mem_cons.1 e with e | e
      · exact absurd e (by decide)
      · rcases List.mem_cons.1 e with e | e
        · exact absurd e (by decide)
        · exact (hp _ e).2.1 rfl
  have e4 : indexByte ']' (':' :: ps) = none := by
    apply indexByte_eq_none
    intro h
    rcases List.mem_cons.1 h with e | e
    · exact absurd e (by decide)
    · exact (hp _ e).2.2 rfl
  have d1 : ('[' :: (hs ++ ']' :: ':' :: ps)).drop (hs.length + 1 + 1) = ':' :: ps := by
    have : '[' :: (hs ++ ']' :: ':' :: ps) = ('[' :: (hs ++ [']'])) ++ (':' :: ps) := by simp
    rw [this, List.drop_left']
    simp
  have d2 : ('[' :: (hs ++ ']' :: ':' :: ps)).drop (hs.length + 2 + 1) = ps := by
    have : '[' :: (hs ++ ']' :: ':' :: ps) = ('[' :: (hs ++ [']', ':'])) ++ ps := by simp
    rw [this, List.drop_left']
    simp
  have d3 : (('[' :: (hs ++ ']' :: ':' :: ps)).take (hs.length + 1)).drop 1 = hs := by
    have : '[' :: (hs ++ ']' :: ':' :: ps) = ('[' :: hs) ++ (']' :: ':' :: ps) := by simp
    rw [this, List.take_left']
    · simp
    · simp
  unfold SplitHostPort
  rw [e1]
  simp only [List.head?_cons, if_true, e2, List.length_cons, List.length_append]
  rw [if_neg (by omega), d1, d2, d3]
  simp [e3, e4]

theorem SplitHostPort_plain (hs ps : List Char) (hne : hs ≠ [])
    (hh : ∀ c ∈ hs, c ≠ ':' ∧ c ≠ '[' ∧ c ≠ ']')
    (hp : ∀ c ∈ ps, c ≠ ':' ∧ c ≠ '[' ∧ c ≠ ']') :
    SplitHostPort (hs ++ ':' :: ps) = Except.ok (hs, ps) := by
  have e1 : lastIndexByte ':' (hs ++ ':' :: ps) = some hs.length :=
    lastIndexByte_append_cons ':' hs ps (fun h => (hp _ h).1 rfl)
  have e2 : indexByte ':' hs = none := indexByte_eq_none _ _ (fun h => (hh _ h).1 rfl)
  have e3 : indexByte '[' (hs ++ ':' :: ps) = none := by
    apply indexByte_eq_none
    intro h
    rcases List.mem_append.1 h with e | e
    · exact (hh _ e).2.1 rfl
    · rcases List.mem_cons.1 e with e | e
      · exact absurd e (by decide)
      · exact (hp _ e).2.1 rfl
  have e4 : indexByte ']' (hs ++ ':' :: ps) = none := by
    apply indexByte_eq_none
    intro h
    rcases List.mem_append.1 h with e | e
    · exact (hh _ e).2.2 rfl
    · rcases List.mem_cons.1 e with e | e
      · exact absurd e (by decide)
      · exact (hp _ e).2.2 rfl
  have hhead : (hs ++ ':' :: ps).head? ≠ some '[' := by
    cases hs with
    | nil => exact absurd rfl hne
    | cons a as =>
      have := (hh a (by simp)).2.1
      simpa using this
  have d1 : (hs ++ ':' :: ps).take hs.length = hs := by simp
  have d2 : (hs ++ ':' :: ps).drop (hs.length + 1) = ps := by
    have : hs ++ ':' :: ps = (hs ++ [':']) ++ ps := by simp
    rw [this, List.drop_left']
    simp
  unfold SplitHostPort
  rw [e1]
  simp only [if_neg hhead, d1, d2, e2, List.drop_zero, e3, e4]
  simp
theorem toList_bracketed (h : String) :
    ("[" ++ h ++ "]:21").toList = '[' :: (h.toList ++ ']' :: ':' :: ['2', '1']) := by
  simp only [String.toList, String.data_append]
  rfl

theorem toList_host_port (h p : String) :
    (h ++ ":" ++ p).toList = h.toList ++ ':' :: p.toList := by
  simp only [String.toList, String.data_append, List.append_assoc]
  rfl

theorem literal_no_special (h : String) (hlit : isIPv4Literal h = true) :
    ∀ c ∈ h.toList, c ≠ ':' ∧ c ≠ '[' ∧ c ≠ ']' := by
  intro c hc
  rcases isIPv4Literal_chars h hlit c hc with e | e
  · subst e; decide
  · refine ⟨?_, ?_, ?_⟩ <;> intro e2 <;> subst e2 <;> exact absurd e (by decide)

theorem digits_no_special (ps : List Char) (pd : ps.all Char.isDigit = true) :
    ∀ c ∈ ps, c ≠ ':' ∧ c ≠ '[' ∧ c ≠ ']' := by
  intro c hc
  have e := List.all_eq_true.1 pd c hc
  refine ⟨?_, ?_, ?_⟩ <;> intro e2 <;> subst e2 <;> exact absurd e (by decide)

/-- C8 (as amended). Host resolution of literal addresses: for every dotted-quad IPv4
literal `h` that `net.ParseIP` accepts, and either value of the IPv6 preference,
`lookupHosts([h])` makes no DNS query and returns exactly the one endpoint `[h]:21` (the
literal in square brackets, then `:21`); with an explicit numeric port `p`,
`lookupHosts([h:p])` makes no DNS query and returns exactly `[h:p]`, unchanged. -/
theorem lookupHosts_literal (env : NetEnv) (ipv6Lookup : Bool) (h p : String)
    (hlit : isIPv4Literal h = true) (hparse : env.ParseIP h = true)
    (hport : p.toList ≠ [] ∧ p.toList.all Char.isDigit = true) :
    lookupHosts env [h] ipv6Lookup
      = { queries := [], result := Except.ok ["[" ++ h ++ "]:21"] } ∧
    lookupHosts env [h ++ ":" ++ p] ipv6Lookup
      = { queries := [], result := Except.ok [h ++ ":" ++ p] } := by
  have hsp := literal_no_special h hlit
  have hcolon : ':' ∉ h.toList := fun hm => (hsp _ hm).1 rfl
  have hne := isIPv4Literal_ne_nil h hlit
  have hmk : String.mk h.toList = h := rfl
  constructor
  · have hp1 : hasPort h = false := by
      unfold hasPort
      rw [matchHostColonDigits_no_colon _ hcolon, matchBracketColonDigits_no_colon _ hcolon]
      rfl
    have hs : SplitHostPort ("[" ++ h ++ "]:21").toList = Except.ok (h.toList, ['2', '1']) := by
      rw [toList_bracketed]
      exact SplitHostPort_bracketed h.toList ['2', '1'] hsp (by decide)
    simp only [lookupHosts, lookupLoop, hp1, hs, hmk, hparse, List.length_singleton,
      List.length_nil, Bool.not_false, Bool.not_true, if_true, if_false, List.nil_append,
      one_ne_zero, Bool.false_eq_true, gt_iff_lt, lt_self_iff_false, and_false]
  · have hp1 : hasPort (h ++ ":" ++ p) = true := by
      unfold hasPort
      rw [toList_host_port, matchHostColonDigits_host_port _ _ hcolon hne hport.1 hport.2]
      rfl
    have hs : SplitHostPort (h ++ ":" ++ p).toList = Except.ok (h.toList, p.toList) := by
      rw [toList_host_port]
      exact SplitHostPort_plain h.toList p.toList hne hsp (digits_no_special _ hport.2)
    simp only [lookupHosts, lookupLoop, hp1, hs, hmk, hparse, List.length_singleton,
      List.length_nil, Bool.not_false, Bool.not_true, if_true, if_false, List.nil_append,
      one_ne_zero, Bool.false_eq_true, gt_iff_lt, lt_self_iff_false, and_false]

/-- Witness of `lookupHosts_literal` at `10.0.0.1` and port `2121`. -/
theorem lookupHosts_literal_witness :
    isIPv4Literal "10.0.0.1" = true ∧ literalNet.ParseIP "10.0.0.1" = true ∧
    lookupHosts literalNet ["10.0.0.1"] true
      = { queries := [], result := Except.ok ["[" ++ "10.0.0.1" ++ "]:21"] } ∧
    lookupHosts literalNet ["10.0.0.1" ++ ":" ++ "2121"] true
      = { queries := [], result := Except.ok ["10.0.0.1" ++ ":" ++ "2121"] } :=
  ⟨by decide, by decide,
    lookupHosts_literal literalNet true "10.0.0.1" "2121" (by decide) (by decide) (by decide)⟩

/-- C8 as stated fails: `1.2.3.4` is a dotted-quad literal, and `lookupHosts(["1.2.3.4"])`
returns the endpoint `[1.2.3.4]:21`, which is not the string `1.2.3.4` followed by `:21`. -/
theorem lookupHosts_literal_not_bare :
    isIPv4Literal "1.2.3.4" = true ∧
    (lookupHosts literalNet ["1.2.3.4"] false).result = Except.ok ["[1.2.3.4]:21"] ∧
    (lookupHosts literalNet ["1.2.3.4"] false).result ≠ Except.ok ["1.2.3.4" ++ ":21"] := by
  decide

/-! ## Connection pool: shutdown -/

theorem foldl_removeConn (l : List persistentConn) (c : Client) :
    l.foldl removeConn c =
      { c with allCons := c.allCons.filter (fun q => decide (q.idx ∉ l.map persistentConn.idx))
               closeLog := c.closeLog ++ l.map persistentConn.idx } := by
  induction l generalizing c with
  | nil => simp
  | cons p ps ih =>
    rw [List.foldl_cons, ih]
    simp only [removeConn, List.filter_filter, List.map_cons, List.append_assoc,
      List.singleton_append, List.mem_cons, not_or]
    congr 2
    funext q
    by_cases h1 : q.idx = p.idx <;> simp [h1]

/-- C3. Shutdown twice: on a pool that is not closed, `Close` returns nil, sets `closed`,
empties the registry and calls `close()` exactly once on every registered connection and on
nothing else (the close log grows by the registered `idx` values, each counted once), and a
second `Close` right after returns the "already closed" error and changes nothing; on a pool
that is closed, `Close` returns an error with text "already closed", leaves the pool state
as it is and closes no connection. -/
theorem Close_twice (c : Client) (hreg : (c.allCons.map persistentConn.idx).Nodup) :
    (c.closed = false →
      (Close c).2 = GoError.nil ∧ (Close c).1.closed = true ∧ (Close c).1.allCons = [] ∧
      (Close c).1.closeLog = c.closeLog ++ c.allCons.map persistentConn.idx ∧
      (∀ i : Int, (Close c).1.closeLog.count i
        = c.closeLog.count i + (if i ∈ c.allCons.map persistentConn.idx then 1 else 0)) ∧
      (Close (Close c).1).2.Error = "already closed" ∧
      (Close (Close c).1).2 ≠ GoError.nil ∧
      (Close (Close c).1).1 = (Close c).1) ∧
    (c.closed = true →
      (Close c).2.Error = "already closed" ∧ (Close c).2 ≠ GoError.nil ∧ (Close c).1 = c) := by
  have hclosed : ∀ d : Client, d.closed = true →
      (Close d).2.Error = "already closed" ∧ (Close d).2 ≠ GoError.nil ∧ (Close d).1 = d := by
    intro d hd
    simp [Close, hd, ftpError.toError, GoError.Error]
  refine ⟨?_, hclosed c⟩
  intro hc
  have hrun : (Close c).1 =
      { c with closed := true, allCons := [],
               closeLog := c.closeLog ++ c.allCons.map persistentConn.idx } := by
    simp only [Close, hc, Bool.false_eq_true, if_false, foldl_removeConn]
    congr 1
    simp only [List.filter_eq_nil_iff, decide_eq_true_eq, not_not]
    intro a ha
    exact List.mem_map_of_mem _ ha
  have hcl : (Close c).1.closed = true := by rw [hrun]
  refine ⟨by simp [Close, hc], hcl, by rw [hrun], by rw [hrun], ?_, (hclosed _ hcl).1,
    (hclosed _ hcl).2.1, (hclosed _ hcl).2.2⟩
  intro i
  rw [hrun]
  simp only [List.count_append]
  by_cases hi : i ∈ c.allCons.map persistentConn.idx
  · rw [if_pos hi, List.count_eq_one_of_mem hreg hi]
  · rw [if_neg hi, List.count_eq_zero_of_not_mem hi]

/-- Witness of `Close_twice`: a pool with two registered connections. -/
theorem Close_twice_witness :
    (Close { newClient {} ["[10.0.0.1]:21"] with
        allCons := [⟨2, "[10.0.0.1]:21", false⟩, ⟨1, "[10.0.0.1]:21", true⟩] }).1.closeLog
      = [2, 1] :=
  ((Close_twice { newClient {} ["[10.0.0.1]:21"] with
        allCons := [⟨2, "[10.0.0.1]:21", false⟩, ⟨1, "[10.0.0.1]:21", true⟩] }
      (by decide)).1 (by decide)).2.2.2.1

/-! ## Connection pool: acquisition -/

theorem mapGet_mapSet (m : List (String × Int)) (k h : String) (v : Int) :
    mapGet (mapSet m k v) h = if h = k then v else mapGet m h := by
  induction m with
  | nil =>
    by_cases e : h = k
    · simp [mapSet, mapGet, e]
    · have e2 : k ≠ h := fun x => e x.symm
      simp [mapSet, mapGet, e, e2]
  | cons kv rest ih =>
    obtain ⟨k1, v1⟩ := kv
    by_cases e1 : k1 = k
    · by_cases e : h = k
      · simp [mapSet, mapGet, e1, e]
      · have e2 : k ≠ h := fun x => e x.symm
        simp [mapSet, mapGet, e1, e, e2]
    · by_cases e : h = k
      · subst e
        simp [mapSet, mapGet, e1, ih]
      · by_cases e3 : k1 = h
        · simp [mapSet, mapGet, e1, e3, e]
        · simp [mapSet, mapGet, e1, e3, e, ih]

theorem sum_mapSet (m : List (String × Int)) (k : String) (d : Int) :
    ((mapSet m k (mapGet m k + d)).map Prod.snd).sum = (m.map Prod.snd).sum + d := by
  induction m with
  | nil => simp [mapSet, mapGet]
  | cons kv rest ih =>
    obtain ⟨k1, v1⟩ := kv
    by_cases e1 : k1 = k
    · simp [mapSet, mapGet, e1]; ring
    · simp [mapSet, mapGet, e1, ih]; ring

theorem firstLoop_not_broken (q : List persistentConn) (c : Client) (p : persistentConn)
    (h : (firstLoop q c).2 = some p) : p.broken = false := by
  induction q generalizing c with
  | nil => simp [firstLoop] at h
  | cons x xs ih =>
    cases hx : x.broken with
    | true =>
      simp only [firstLoop, hx, if_true] at h
      exact ih _ h
    | false =>
      simp only [firstLoop, hx, Bool.false_eq_true, if_false, Option.some.injEq] at h
      subst h
      exact hx

theorem openNew_not_broken (c : Client) (env : OpenEnv) (p : persistentConn)
    (h : (openNew c env).2 = AcquireResult.conn p) : p.broken = false := by
  unfold openNew at h
  simp only at h
  split at h
  · simp at h
  · split at h
    · rename_i c2 pc err heq
      simp only [AcquireResult.conn.injEq] at h
      subst h
      unfold openConn at heq
      simp only at heq
      split at heq
      · simp at heq
      · split at heq
        · simp at heq
        · split at heq
          · simp only [Prod.mk.injEq, Option.some.injEq] at heq
            rw [← heq.2.1]
          · simp only [Prod.mk.injEq, Option.some.injEq] at heq
            rw [← heq.2.1]
    · simp at h

theorem secondLoop_not_broken (env : OpenEnv) (q : List persistentConn) (c : Client)
    (p : persistentConn) (h : (secondLoop env q c).2 = AcquireResult.conn p) :
    p.broken = false := by
  induction q generalizing c with
  | nil =>
    unfold secondLoop at h
    split at h
    · exact openNew_not_broken _ _ _ h
    · simp at h
  | cons x xs ih =>
    unfold secondLoop at h
    split at h
    · exact openNew_not_broken _ _ _ h
    · cases hx : x.broken with
      | true =>
        simp only [hx, if_true] at h
        exact ih _ h
      | false =>
        simp only [hx, Bool.false_eq_true, if_false, AcquireResult.conn.injEq] at h
        subst h
        exact hx

theorem getIdleConn_not_broken (c : Client) (env : OpenEnv) (p : persistentConn)
    (h : (getIdleConn c env).2 = AcquireResult.conn p) : p.broken = false := by
  unfold getIdleConn at h
  split at h
  · rename_i c1 pc heq
    simp only [AcquireResult.conn.injEq] at h
    subst h
    exact firstLoop_not_broken _ _ _ (by rw [heq])
  · exact secondLoop_not_broken _ _ _ _ h
theorem wakeWaiter_not_broken (c : Client) (env : OpenEnv) (p : persistentConn)
    (h : (wakeWaiter c env).2 = AcquireResult.conn p) : p.broken = false := by
  unfold wakeWaiter at h
  split at h
  · simp at h
  · rename_i x xs heq
    cases hx : x.broken with
    | true =>
      simp only [hx, if_true] at h
      exact secondLoop_not_broken _ _ _ _ h
    | false =>
      simp only [hx, Bool.false_eq_true, if_false, AcquireResult.conn.injEq] at h
      subst h
      exact hx

theorem firstLoop_evicts (rest : List persistentConn) (p : persistentConn)
    (hp : p.broken = false) (pre : List persistentConn) (c : Client)
    (hpre : ∀ q ∈ pre, q.broken = true) :
    (firstLoop (pre ++ p :: rest) c).2 = some p ∧
    (firstLoop (pre ++ p :: rest) c).1.freeConnCh = rest ∧
    (firstLoop (pre ++ p :: rest) c).1.allCons
      = c.allCons.filter (fun q => decide (q.idx ∉ pre.map persistentConn.idx)) ∧
    (firstLoop (pre ++ p :: rest) c).1.closeLog = c.closeLog ++ pre.map persistentConn.idx ∧
    (∀ h : String, mapGet (firstLoop (pre ++ p :: rest) c).1.numConnsPerHost h
      = mapGet c.numConnsPerHost h - ((pre.filter (fun q => decide (q.host = h))).length : Int)) := by
  induction pre generalizing c with
  | nil => simp [firstLoop, hp]
  | cons x xs ih =>
    have hx : x.broken = true := hpre x (by simp)
    have hxs : ∀ q ∈ xs, q.broken = true := fun q hq => hpre q (by simp [hq])
    have step : firstLoop (x :: xs ++ p :: rest) c
        = firstLoop (xs ++ p :: rest)
            (evictBroken { c with freeConnCh := xs ++ p :: rest } x) := by
      simp [firstLoop, hx]
    rw [step]
    obtain ⟨h1, h2, h3, h4, h5⟩ := ih (evictBroken { c with freeConnCh := xs ++ p :: rest } x) hxs
    refine ⟨h1, h2, ?_, ?_, ?_⟩
    · rw [h3]
      simp only [evictBroken, removeConn, addConns, List.filter_filter, List.map_cons,
        List.mem_cons, not_or]
      congr 1
      funext q
      by_cases e : q.idx = x.idx <;> simp [e]
    · rw [h4]
      simp [evictBroken, removeConn, addConns]
    · intro h
      rw [h5]
      simp only [evictBroken, removeConn, addConns, mapGet_mapSet]
      by_cases e : h = x.host
      · subst e
        simp [List.filter_cons]
        ring
      · have e2 : ¬ x.host = h := fun t => e t.symm
        simp [e, e2, List.filter_cons]

theorem foldl_evictBroken_queue (pre : List persistentConn) (c : Client)
    (q : List persistentConn) :
    pre.foldl evictBroken { c with freeConnCh := q }
      = { pre.foldl evictBroken c with freeConnCh := q } := by
  induction pre generalizing c with
  | nil => rfl
  | cons x xs ih =>
    simp only [List.foldl_cons]
    exact ih (evictBroken c x)

theorem foldl_evictBroken_fields (pre : List persistentConn) (c : Client) :
    (pre.foldl evictBroken c).allCons
      = c.allCons.filter (fun q => decide (q.idx ∉ pre.map persistentConn.idx)) ∧
    (pre.foldl evictBroken c).closeLog = c.closeLog ++ pre.map persistentConn.idx ∧
    (∀ h : String, mapGet (pre.foldl evictBroken c).numConnsPerHost h
      = mapGet c.numConnsPerHost h
        - ((pre.filter (fun q => decide (q.host = h))).length : Int)) ∧
    (pre.foldl evictBroken c).hosts = c.hosts ∧
    (pre.foldl evictBroken c).config = c.config ∧
    (pre.foldl evictBroken c).freeConnCh = c.freeConnCh ∧
    (pre.foldl evictBroken c).closed = c.closed := by
  induction pre generalizing c with
  | nil => simp
  | cons x xs ih =>
    simp only [List.foldl_cons]
    obtain ⟨h3, h4, h5, h6, h7, h8, h9⟩ := ih (evictBroken c x)
    refine ⟨?_, ?_, ?_, h6, h7, h8, h9⟩
    · rw [h3]
      simp only [evictBroken, removeConn, addConns, List.filter_filter, List.map_cons,
        List.mem_cons, not_or]
      congr 1
      funext q
      by_cases e : q.idx = x.idx <;> simp [e]
    · rw [h4]
      simp [evictBroken, removeConn, addConns]
    · intro h
      rw [h5]
      simp only [evictBroken, removeConn, addConns, mapGet_mapSet]
      by_cases e : h = x.host
      · subst e
        simp [List.filter_cons]
        ring
      · have e2 : ¬ x.host = h := fun t => e t.symm
        simp [e, e2, List.filter_cons]

theorem firstLoop_shape (q : List persistentConn) (c : Client) :
    ∃ pre rest : List persistentConn, q = pre ++ rest ∧ (∀ x ∈ pre, x.broken = true) ∧
      ((∃ (p : persistentConn) (rest1 : List persistentConn),
          rest = p :: rest1 ∧ p.broken = false ∧
          firstLoop q c = ({ pre.foldl evictBroken c with freeConnCh := rest1 }, some p)) ∨
       (rest = [] ∧
          firstLoop q c = ({ pre.foldl evictBroken c with freeConnCh := [] }, none))) := by
  induction q generalizing c with
  | nil => exact ⟨[], [], rfl, by simp, Or.inr ⟨rfl, rfl⟩⟩
  | cons x xs ih =>
    cases hx : x.broken with
    | false =>
      refine ⟨[], x :: xs, rfl, by simp, Or.inl ⟨x, xs, rfl, hx, ?_⟩⟩
      simp [firstLoop, hx]
    | true =>
      obtain ⟨pre, rest, hq, hb, hout⟩ := ih (evictBroken { c with freeConnCh := xs } x)
      have hstep : firstLoop (x :: xs) c
          = firstLoop xs (evictBroken { c with freeConnCh := xs } x) := by
        simp [firstLoop, hx]
      have hfold : ∀ r : List persistentConn,
          { pre.foldl evictBroken (evictBroken { c with freeConnCh := xs } x)
              with freeConnCh := r }
            = { (x :: pre).foldl evictBroken c with freeConnCh := r } := by
        intro r
        have e1 : evictBroken { c with freeConnCh := xs } x
            = { evictBroken c x with freeConnCh := xs } := rfl
        rw [e1, foldl_evictBroken_queue]
        rfl
      refine ⟨x :: pre, rest, by rw [hq]; rfl, ?_, ?_⟩
      · intro y hy
        rcases List.mem_cons.1 hy with e | e
        · rw [e]; exact hx
        · exact hb y e
      · rcases hout with ⟨p, rest1, h1, h2, h3⟩ | ⟨h1, h3⟩
        · exact Or.inl ⟨p, rest1, h1, h2, by rw [hstep, h3, hfold]⟩
        · exact Or.inr ⟨h1, by rw [hstep, h3, hfold]⟩

theorem secondLoop_shape (env : OpenEnv) (q : List persistentConn) (c : Client)
    (hq : c.freeConnCh = q) :
    ∃ pre rest : List persistentConn, q = pre ++ rest ∧ (∀ x ∈ pre, x.broken = true) ∧
      ((numOpenConns (pre.foldl evictBroken c)
            < (c.hosts.length : Int) * c.config.ConnectionsPerHost ∧
          secondLoop env q c
            = openNew { pre.foldl evictBroken c with freeConnCh := rest } env) ∨
       (¬ numOpenConns (pre.foldl evictBroken c)
            < (c.hosts.length : Int) * c.config.ConnectionsPerHost ∧
          ∃ (p : persistentConn) (rest1 : List persistentConn),
            rest = p :: rest1 ∧ p.broken = false ∧
            secondLoop env q c
              = ({ pre.foldl evictBroken c with freeConnCh := rest1 },
                  AcquireResult.conn p)) ∨
       (¬ numOpenConns (pre.foldl evictBroken c)
            < (c.hosts.length : Int) * c.config.ConnectionsPerHost ∧
          rest = [] ∧
          secondLoop env q c
            = ({ pre.foldl evictBroken c with freeConnCh := [] }, AcquireResult.blocked))) := by
  induction q generalizing c with
  | nil =>
    by_cases hlt : numOpenConns c < (c.hosts.length : Int) * c.config.ConnectionsPerHost
    · refine ⟨[], [], rfl, by simp, Or.inl ⟨hlt, ?_⟩⟩
      unfold secondLoop
      rw [if_pos hlt]
      cases c
      simp only at hq
      subst hq
      rfl
    · refine ⟨[], [], rfl, by simp, Or.inr (Or.inr ⟨hlt, rfl, ?_⟩)⟩
      unfold secondLoop
      rw [if_neg hlt]
      rfl
  | cons x xs ih =>
    by_cases hlt : numOpenConns c < (c.hosts.length : Int) * c.config.ConnectionsPerHost
    · refine ⟨[], x :: xs, rfl, by simp, Or.inl ⟨hlt, ?_⟩⟩
      unfold secondLoop
      rw [if_pos hlt]
      cases c
      simp only at hq
      subst hq
      rfl
    · cases hx : x.broken with
      | false =>
        refine ⟨[], x :: xs, rfl, by simp, Or.inr (Or.inl ⟨hlt, x, xs, rfl, hx, ?_⟩)⟩
        unfold secondLoop
        rw [if_neg hlt]
        simp [hx]
      | true =>
        obtain ⟨pre, rest, hq2, hb, hout⟩ :=
          ih (evictBroken { c with freeConnCh := xs } x) rfl
        have hstep : secondLoop env (x :: xs) c
            = secondLoop env xs (evictBroken { c with freeConnCh := xs } x) := by
          conv_lhs => unfold secondLoop
          rw [if_neg hlt]
          simp [hx]
        have hE : pre.foldl evictBroken (evictBroken { c with freeConnCh := xs } x)
            = { (x :: pre).foldl evictBroken c with freeConnCh := xs } := by
          have e1 : evictBroken { c with freeConnCh := xs } x
              = { evictBroken c x with freeConnCh := xs } := rfl
          rw [e1, foldl_evictBroken_queue]
          rfl
        have hnum : numOpenConns (pre.foldl evictBroken (evictBroken { c with freeConnCh := xs } x))
            = numOpenConns ((x :: pre).foldl evictBroken c) := by
          rw [hE]; rfl
        have hfold : ∀ r : List persistentConn,
            { pre.foldl evictBroken (evictBroken { c with freeConnCh := xs } x)
                with freeConnCh := r }
              = { (x :: pre).foldl evictBroken c with freeConnCh := r } := by
          intro r
          rw [hE]
        have hcap : ((evictBroken { c with freeConnCh := xs } x).hosts.length : Int)
            * (evictBroken { c with freeConnCh := xs } x).config.ConnectionsPerHost
            = (c.hosts.length : Int) * c.config.ConnectionsPerHost := rfl
        rw [hcap, hnum] at hout
        refine ⟨x :: pre, rest, by rw [hq2]; rfl, ?_, ?_⟩
        · intro y hy
          rcases List.mem_cons.1 hy with e | e
          · rw [e]; exact hx
          · exact hb y e
        · rcases hout with ⟨g, h3⟩ | ⟨g, p, rest1, h1, h2, h3⟩ | ⟨g, h1, h3⟩
          · exact Or.inl ⟨g, by rw [hstep, h3, hfold]⟩
          · exact Or.inr (Or.inl ⟨g, p, rest1, h1, h2, by rw [hstep, h3, hfold]⟩)
          · exact Or.inr (Or.inr ⟨g, h1, by rw [hstep, h3, hfold]⟩)

theorem getIdleConn_shape (c : Client) (env : OpenEnv) :
    ∃ pre rest : List persistentConn, c.freeConnCh = pre ++ rest ∧
      (∀ x ∈ pre, x.broken = true) ∧
      ((∃ (p : persistentConn) (rest1 : List persistentConn),
          rest = p :: rest1 ∧ p.broken = false ∧
          getIdleConn c env
            = ({ pre.foldl evictBroken c with freeConnCh := rest1 }, AcquireResult.conn p)) ∨
       (rest = [] ∧
          numOpenConns (pre.foldl evictBroken c)
            < (c.hosts.length : Int) * c.config.ConnectionsPerHost ∧
          getIdleConn c env = openNew { pre.foldl evictBroken c with freeConnCh := [] } env) ∨
       (rest = [] ∧
          ¬ numOpenConns (pre.foldl evictBroken c)
            < (c.hosts.length : Int) * c.config.ConnectionsPerHost ∧
          getIdleConn c env
            = ({ pre.foldl evictBroken c with freeConnCh := [] }, AcquireResult.blocked))) := by
  obtain ⟨pre, rest, hq, hb, hout⟩ := firstLoop_shape c.freeConnCh c
  have hf := foldl_evictBroken_fields pre c
  refine ⟨pre, rest, hq, hb, ?_⟩
  rcases hout with ⟨p, rest1, h1, h2, h3⟩ | ⟨h1, h3⟩
  · left
    refine ⟨p, rest1, h1, h2, ?_⟩
    unfold getIdleConn
    rw [h3]
  · right
    have hcap : (({ pre.foldl evictBroken c with freeConnCh := [] } : Client).hosts.length : Int)
        * ({ pre.foldl evictBroken c with freeConnCh := [] } : Client).config.ConnectionsPerHost
        = (c.hosts.length : Int) * c.config.ConnectionsPerHost := by
      show ((pre.foldl evictBroken c).hosts.length : Int)
        * (pre.foldl evictBroken c).config.ConnectionsPerHost = _
      rw [hf.2.2.2.1, hf.2.2.2.2.1]
    have hnum : numOpenConns ({ pre.foldl evictBroken c with freeConnCh := [] } : Client)
        = numOpenConns (pre.foldl evictBroken c) := rfl
    by_cases hlt : numOpenConns (pre.foldl evictBroken c)
        < (c.hosts.length : Int) * c.config.ConnectionsPerHost
    · left
      refine ⟨h1, hlt, ?_⟩
      unfold getIdleConn
      rw [h3]
      simp only
      unfold secondLoop
      rw [hcap, hnum, if_pos hlt]
    · right
      refine ⟨h1, hlt, ?_⟩
      unfold getIdleConn
      rw [h3]
      simp only
      unfold secondLoop
      rw [hcap, hnum, if_neg hlt]

theorem wakeWaiter_shape (c : Client) (env : OpenEnv) :
    ∃ pre rest : List persistentConn, c.freeConnCh = pre ++ rest ∧
      (∀ x ∈ pre, x.broken = true) ∧
      ((∃ (p : persistentConn) (rest1 : List persistentConn),
          rest = p :: rest1 ∧ p.broken = false ∧
          wakeWaiter c env
            = ({ pre.foldl evictBroken c with freeConnCh := rest1 }, AcquireResult.conn p)) ∨
       (pre ≠ [] ∧
          numOpenConns (pre.foldl evictBroken c)
            < (c.hosts.length : Int) * c.config.ConnectionsPerHost ∧
          wakeWaiter c env = openNew { pre.foldl evictBroken c with freeConnCh := rest } env) ∨
       (rest = [] ∧
          wakeWaiter c env
            = ({ pre.foldl evictBroken c with freeConnCh := [] }, AcquireResult.blocked))) := by
  cases hq : c.freeConnCh with
  | nil =>
    refine ⟨[], [], rfl, by simp, Or.inr (Or.inr ⟨rfl, ?_⟩)⟩
    unfold wakeWaiter
    rw [hq]
    simp only [List.foldl_nil]
    cases c
    simp only at hq
    subst hq
    rfl
  | cons x xs =>
    cases hx : x.broken with
    | false =>
      refine ⟨[], x :: xs, rfl, by simp, Or.inl ⟨x, xs, rfl, hx, ?_⟩⟩
      unfold wakeWaiter
      rw [hq]
      simp [hx]
    | true =>
      obtain ⟨pre, rest, hq2, hb, hout⟩ :=
        secondLoop_shape env xs (evictBroken { c with freeConnCh := xs } x) rfl
      have hstep : wakeWaiter c env
          = secondLoop env xs (evictBroken { c with freeConnCh := xs } x) := by
        unfold wakeWaiter
        rw [hq]
        simp [hx]
      have hE : pre.foldl evictBroken (evictBroken { c with freeConnCh := xs } x)
          = { (x :: pre).foldl evictBroken c with freeConnCh := xs } := by
        have e1 : evictBroken { c with freeConnCh := xs } x
            = { evictBroken c x with freeConnCh := xs } := rfl
        rw [e1, foldl_evictBroken_queue]
        rfl
      have hnum : numOpenConns
          (pre.foldl evictBroken (evictBroken { c with freeConnCh := xs } x))
          = numOpenConns ((x :: pre).foldl evictBroken c) := by
        rw [hE]; rfl
      have hfold : ∀ r : List persistentConn,
          { pre.foldl evictBroken (evictBroken { c with freeConnCh := xs } x)
              with freeConnCh := r }
            = { (x :: pre).foldl evictBroken c with freeConnCh := r } := by
        intro r
        rw [hE]
      have hcap : ((evictBroken { c with freeConnCh := xs } x).hosts.length : Int)
          * (evictBroken { c with freeConnCh := xs } x).config.ConnectionsPerHost
          = (c.hosts.length : Int) * c.config.ConnectionsPerHost := rfl
      rw [hcap, hnum] at hout
      refine ⟨x :: pre, rest, by rw [hq2]; rfl, ?_, ?_⟩
      · intro y hy
        rcases List.mem_cons.1 hy with e | e
        · rw [e]; exact hx
        · exact hb y e
      · rcases hout with ⟨g, h3⟩ | ⟨_, p, rest1, h1, h2, h3⟩ | ⟨_, h1, h3⟩
        · exact Or.inr (Or.inl ⟨by simp, g, by rw [hstep, h3, hfold]⟩)
        · exact Or.inl ⟨p, rest1, h1, h2, by rw [hstep, h3, hfold]⟩
        · exact Or.inr (Or.inr ⟨h1, by rw [hstep, h3, hfold]⟩)

/-- C2. A broken connection is never handed out. Every connection that `getIdleConn`
returns, at once or to a caller that waited in its second loop, has `broken = false`. When
the idle queue is a run `pre` of broken connections followed by a connection `p` that is not
broken, `getIdleConn` returns `p`, leaves the rest of the queue, and has evicted every
connection of `pre` and nothing else: their entries are gone from the registry, `close()`
was called once on each of them, and the counter of every host went down by the number of
connections of `pre` on that host. After `returnConn(p)` with `p.broken = true`, the next
`getIdleConn` does not return `p`. On every path, of `getIdleConn` and of a caller waking up
in the blocking receive of the second loop alike, the connections dequeued are a run `pre`
of broken connections at the head of the queue, and the call goes on (returning the next
queued connection, which is not broken, or opening a new one, or blocking on the empty
queue) from exactly the pool state in which every connection of `pre` has been evicted once:
registry entry removed, `close()` called, host counter decremented. -/
theorem getIdleConn_skips_broken (c : Client) (env : OpenEnv) :
    (∀ p : persistentConn, (getIdleConn c env).2 = AcquireResult.conn p → p.broken = false) ∧
    (∀ p : persistentConn, (wakeWaiter c env).2 = AcquireResult.conn p → p.broken = false) ∧
    (∀ (pre rest : List persistentConn) (p : persistentConn),
      c.freeConnCh = pre ++ p :: rest → (∀ q ∈ pre, q.broken = true) → p.broken = false →
      (getIdleConn c env).2 = AcquireResult.conn p ∧
      (getIdleConn c env).1.freeConnCh = rest ∧
      (getIdleConn c env).1.allCons
        = c.allCons.filter (fun q => decide (q.idx ∉ pre.map persistentConn.idx)) ∧
      (getIdleConn c env).1.closeLog = c.closeLog ++ pre.map persistentConn.idx ∧
      (∀ h : String, mapGet (getIdleConn c env).1.numConnsPerHost h
        = mapGet c.numConnsPerHost h
          - ((pre.filter (fun q => decide (q.host = h))).length : Int))) ∧
    (∀ (p : persistentConn) (c1 : Client), p.broken = true → returnConn c p = some c1 →
      (getIdleConn c1 env).2 ≠ AcquireResult.conn p) ∧
    (∀ pre : List persistentConn,
      (pre.foldl evictBroken c).allCons
        = c.allCons.filter (fun q => decide (q.idx ∉ pre.map persistentConn.idx)) ∧
      (pre.foldl evictBroken c).closeLog = c.closeLog ++ pre.map persistentConn.idx ∧
      (∀ h : String, mapGet (pre.foldl evictBroken c).numConnsPerHost h
        = mapGet c.numConnsPerHost h
          - ((pre.filter (fun q => decide (q.host = h))).length : Int))) ∧
    (∃ pre rest : List persistentConn, c.freeConnCh = pre ++ rest ∧
      (∀ x ∈ pre, x.broken = true) ∧
      ((∃ (p : persistentConn) (rest1 : List persistentConn),
          rest = p :: rest1 ∧ p.broken = false ∧
          getIdleConn c env
            = ({ pre.foldl evictBroken c with freeConnCh := rest1 }, AcquireResult.conn p)) ∨
       (rest = [] ∧
          numOpenConns (pre.foldl evictBroken c)
            < (c.hosts.length : Int) * c.config.ConnectionsPerHost ∧
          getIdleConn c env = openNew { pre.foldl evictBroken c with freeConnCh := [] } env) ∨
       (rest = [] ∧
          ¬ numOpenConns (pre.foldl evictBroken c)
            < (c.hosts.length : Int) * c.config.ConnectionsPerHost ∧
          getIdleConn c env
            = ({ pre.foldl evictBroken c with freeConnCh := [] }, AcquireResult.blocked)))) ∧
    (∃ pre rest : List persistentConn, c.freeConnCh = pre ++ rest ∧
      (∀ x ∈ pre, x.broken = true) ∧
      ((∃ (p : persistentConn) (rest1 : List persistentConn),
          rest = p :: rest1 ∧ p.broken = false ∧
          wakeWaiter c env
            = ({ pre.foldl evictBroken c with freeConnCh := rest1 }, AcquireResult.conn p)) ∨
       (pre ≠ [] ∧
          numOpenConns (pre.foldl evictBroken c)
            < (c.hosts.length : Int) * c.config.ConnectionsPerHost ∧
          wakeWaiter c env = openNew { pre.foldl evictBroken c with freeConnCh := rest } env) ∨
       (rest = [] ∧
          wakeWaiter c env
            = ({ pre.foldl evictBroken c with freeConnCh := [] }, AcquireResult.blocked)))) := by
  refine ⟨fun p h => getIdleConn_not_broken c env p h,
    fun p h => wakeWaiter_not_broken c env p h, ?_, ?_,
    fun pre => ⟨(foldl_evictBroken_fields pre c).1, (foldl_evictBroken_fields pre c).2.1,
      (foldl_evictBroken_fields pre c).2.2.1⟩,
    getIdleConn_shape c env, wakeWaiter_shape c env⟩
  · intro pre rest p hq hpre hp
    obtain ⟨h1, h2, h3, h4, h5⟩ := firstLoop_evicts rest p hp pre c hpre
    have hg : getIdleConn c env = ((firstLoop (pre ++ p :: rest) c).1, AcquireResult.conn p) := by
      unfold getIdleConn
      rw [hq]
      split
      · rename_i c1 pc heq
        rw [heq] at h1
        simp only [Option.some.injEq] at h1
        rw [heq, h1]
      · rename_i c1 heq
        rw [heq] at h1
        simp at h1
    rw [hg]
    exact ⟨rfl, h2, h3, h4, h5⟩
  · intro p c1 hb _ hres
    have := getIdleConn_not_broken c1 env p hres
    rw [hb] at this
    exact absurd this (by decide)

/-- Witness of `getIdleConn_skips_broken`: the idle queue holds the broken connection 1,
then the usable connection 2; the call returns connection 2 and has closed connection 1. -/
theorem getIdleConn_skips_broken_witness :
    (getIdleConn { newClient {} ["[10.0.0.1]:21"] with
        freeConnCh := [⟨1, "[10.0.0.1]:21", true⟩, ⟨2, "[10.0.0.1]:21", false⟩]
        allCons := [⟨2, "[10.0.0.1]:21", false⟩, ⟨1, "[10.0.0.1]:21", false⟩]
        numConnsPerHost := [("[10.0.0.1]:21", 2)]
        connIdx := 2 } {}).2 = AcquireResult.conn ⟨2, "[10.0.0.1]:21", false⟩ ∧
    (getIdleConn { newClient {} ["[10.0.0.1]:21"] with
        freeConnCh := [⟨1, "[10.0.0.1]:21", true⟩, ⟨2, "[10.0.0.1]:21", false⟩]
        allCons := [⟨2, "[10.0.0.1]:21", false⟩, ⟨1, "[10.0.0.1]:21", false⟩]
        numConnsPerHost := [("[10.0.0.1]:21", 2)]
        connIdx := 2 } {}).1.closeLog = [] ++ [1] :=
  ⟨((getIdleConn_skips_broken _ {}).2.2.1 [⟨1, "[10.0.0.1]:21", true⟩] []
      ⟨2, "[10.0.0.1]:21", false⟩ rfl (by decide) rfl).1,
   ((getIdleConn_skips_broken _ {}).2.2.1 [⟨1, "[10.0.0.1]:21", true⟩] []
      ⟨2, "[10.0.0.1]:21", false⟩ rfl (by decide) rfl).2.2.2.1⟩

/-! ## Connection pool: the cap invariant -/

theorem capInv_evictBroken (L : Int) (H : List String) (c : Client) (p : persistentConn)
    (q : List persistentConn) (h : CapInv L H c) :
    CapInv L H (evictBroken { c with freeConnCh := q } p) := by
  obtain ⟨h1, h2, h3, h4, h5⟩ := h
  refine ⟨h1, h2, h3, ?_, ?_⟩
  · intro k
    simp only [evictBroken, removeConn, addConns, mapGet_mapSet]
    split
    · have := h4 p.host; omega
    · exact h4 k
  · simp only [numOpenConns, evictBroken, removeConn, addConns, sum_mapSet]
    simp only [numOpenConns] at h5
    omega

theorem capInv_firstLoop (L : Int) (H : List String) (q : List persistentConn) (c : Client)
    (h : CapInv L H c) : CapInv L H (firstLoop q c).1 := by
  induction q generalizing c with
  | nil => exact h
  | cons x xs ih =>
    cases hx : x.broken with
    | true =>
      simp only [firstLoop, hx, if_true]
      exact ih _ (capInv_evictBroken L H c x xs h)
    | false =>
      simp only [firstLoop, hx, Bool.false_eq_true, if_false]
      exact h

theorem pickHost_under_limit (c : Client) (idx : Nat) :
    pickHost c idx = "" ∨
      mapGet c.numConnsPerHost (pickHost c idx) < c.config.ConnectionsPerHost := by
  unfold pickHost
  split
  · rename_i i heq
    right
    have := List.find?_some heq
    simpa using this
  · left; rfl

theorem openConn_frame (c : Client) (env : OpenEnv) (idx : Int) (host : String) :
    (openConn c env idx host).1.config = c.config ∧
    (openConn c env idx host).1.hosts = c.hosts ∧
    (openConn c env idx host).1.numConnsPerHost = c.numConnsPerHost ∧
    (openConn c env idx host).1.freeConnCh = c.freeConnCh ∧
    (openConn c env idx host).1.freeConnCap = c.freeConnCap ∧
    (openConn c env idx host).1.connIdx = c.connIdx ∧
    (openConn c env idx host).1.closed = c.closed := by
  unfold openConn
  simp only
  split
  · simp
  · split
    · simp
    · split <;> simp

theorem capInv_openNew (L : Int) (H : List String) (c : Client) (env : OpenEnv)
    (h : CapInv L H c)
    (hlt : numOpenConns c < (c.hosts.length : Int) * c.config.ConnectionsPerHost) :
    CapInv L H (openNew c env).1 := by
  obtain ⟨h1, h2, h3, h4, h5⟩ := h
  unfold openNew
  simp only
  split
  · exact ⟨h1, h2, h3, h4, h5⟩
  · rename_i hne
    have hpk := pickHost_under_limit { c with connIdx := c.connIdx + 1 } (c.connIdx + 1)
    rcases hpk with hpk | hpk
    · exact absurd hpk hne
    · simp only at hpk
      generalize pickHost { c with connIdx := c.connIdx + 1 } (c.connIdx + 1) = host at hpk hne
      have hf := openConn_frame (addConns { c with connIdx := c.connIdx + 1 } host 1) env
        ((c.connIdx + 1 : Nat) : Int) host
      obtain ⟨f1, f2, f3, _, _, _, _⟩ := hf
      have hcnt : ∀ k : String,
          mapGet (addConns { c with connIdx := c.connIdx + 1 } host 1).numConnsPerHost k ≤ L := by
        intro k
        simp only [addConns, mapGet_mapSet]
        split
        · rw [h1] at hpk; omega
        · exact h4 k
      have hsum : numOpenConns (addConns { c with connIdx := c.connIdx + 1 } host 1)
          ≤ (H.length : Int) * L := by
        simp only [numOpenConns, addConns, sum_mapSet]
        simp only [numOpenConns] at hlt
        rw [h1, h2] at hlt
        omega
      split
      · rename_i c2 pc err heq
        rw [heq] at f1 f2 f3
        simp only at f1 f2 f3
        refine ⟨by rw [f1]; exact h1, by rw [f2]; exact h2, h3, ?_, ?_⟩
        · intro k; rw [f3]; exact hcnt k
        · simp only [numOpenConns]; rw [f3]; exact hsum
      · rename_i c2 err heq
        rw [heq] at f1 f2 f3
        simp only at f1 f2 f3
        refine ⟨by simp only [addConns]; rw [f1]; exact h1,
          by simp only [addConns]; rw [f2]; exact h2, h3, ?_, ?_⟩
        · intro k
          simp only [addConns, mapGet_mapSet]
          rw [f3]
          split
          · have := hcnt host; omega
          · exact hcnt k
        · simp only [numOpenConns, addConns, sum_mapSet]
          rw [f3]
          simp only [numOpenConns] at hsum
          omega

theorem capInv_secondLoop (L : Int) (H : List String) (env : OpenEnv)
    (q : List persistentConn) (c : Client) (h : CapInv L H c) :
    CapInv L H (secondLoop env q c).1 := by
  induction q generalizing c with
  | nil =>
    unfold secondLoop
    split
    · rename_i hlt; exact capInv_openNew L H c env h hlt
    · exact h
  | cons x xs ih =>
    unfold secondLoop
    split
    · rename_i hlt; exact capInv_openNew L H c env h hlt
    · cases hx : x.broken with
      | true =>
        simp only [hx, if_true]
        exact ih _ (capInv_evictBroken L H c x xs h)
      | false =>
        simp only [hx, Bool.false_eq_true, if_false]
        exact h

theorem capInv_getIdleConn (L : Int) (H : List String) (env : OpenEnv) (c : Client)
    (h : CapInv L H c) : CapInv L H (getIdleConn c env).1 := by
  have h1 := capInv_firstLoop L H c.freeConnCh c h
  unfold getIdleConn
  split
  · rename_i c1 pc heq
    rw [heq] at h1
    exact h1
  · rename_i c1 heq
    rw [heq] at h1
    exact capInv_secondLoop L H env _ _ h1

theorem capInv_wakeWaiter (L : Int) (H : List String) (env : OpenEnv) (c : Client)
    (h : CapInv L H c) : CapInv L H (wakeWaiter c env).1 := by
  unfold wakeWaiter
  split
  · exact h
  · rename_i x xs heq
    cases hx : x.broken with
    | true =>
      simp only [hx, if_true]
      exact capInv_secondLoop L H env _ _ (capInv_evictBroken L H c x xs h)
    | false =>
      simp only [hx, Bool.false_eq_true, if_false]
      exact h

theorem capInv_OpenRawConn (L : Int) (H : List String) (env : OpenEnv) (c : Client)
    (h : CapInv L H c) : CapInv L H (OpenRawConn c env).1 := by
  unfold OpenRawConn
  split
  · exact h
  · simp only
    have hf := openConn_frame { c with rawConnIdx := c.rawConnIdx + 1 } env
      (-((c.rawConnIdx : Int) + 1)) (c.hosts.getD (c.rawConnIdx % c.hosts.length) "")
    obtain ⟨f1, f2, f3, _, _, _, _⟩ := hf
    obtain ⟨h1, h2, h3, h4, h5⟩ := h
    split
    · rename_i c2 pc err heq
      rw [heq] at f1 f2 f3
      simp only at f1 f2 f3
      exact ⟨by rw [f1]; exact h1, by rw [f2]; exact h2, h3, by rw [f3]; exact h4,
        by simp only [numOpenConns]; rw [f3]; exact h5⟩
    · rename_i c2 err heq
      rw [heq] at f1 f2 f3
      simp only at f1 f2 f3
      exact ⟨by rw [f1]; exact h1, by rw [f2]; exact h2, h3, by rw [f3]; exact h4,
        by simp only [numOpenConns]; rw [f3]; exact h5⟩

theorem capInv_Close (L : Int) (H : List String) (c : Client) (h : CapInv L H c) :
    CapInv L H (Close c).1 := by
  unfold Close
  split
  · exact h
  · simp only [foldl_removeConn]
    exact h

theorem newClient_limit (config : Config) (hosts : List String) :
    (newClient config hosts).config.ConnectionsPerHost
      = if config.ConnectionsPerHost ≤ 0 then 5 else config.ConnectionsPerHost := by
  simp only [newClient]
  by_cases h : config.ConnectionsPerHost ≤ 0
  · simp only [h, if_true]
    split <;> split <;> split <;> split <;> split <;> rfl
  · simp only [h, if_false]
    split <;> split <;> split <;> split <;> split <;> rfl

theorem capInv_newClient (config : Config) (hosts : List String) :
    CapInv (newClient config hosts).config.ConnectionsPerHost hosts (newClient config hosts) := by
  have hL := newClient_limit config hosts
  have hpos : 0 < (newClient config hosts).config.ConnectionsPerHost := by
    rw [hL]; split <;> omega
  refine ⟨rfl, rfl, hpos, ?_, ?_⟩
  · intro h
    show mapGet [] h ≤ _
    simp only [mapGet]
    omega
  · show (0 : Int) ≤ _
    positivity
theorem capInv_returnConn (L : Int) (H : List String) (c c1 : Client) (p : persistentConn)
    (h : CapInv L H c) (hr : returnConn c p = some c1) : CapInv L H c1 := by
  unfold returnConn at hr
  split at hr
  · simp only [Option.some.injEq] at hr
    subst hr
    exact h
  · simp at hr

theorem capInv_of_reach (config : Config) (hosts : List String) (c : Client)
    (lent : List persistentConn) (hr : Reach config hosts c lent) :
    CapInv (newClient config hosts).config.ConnectionsPerHost hosts c := by
  induction hr with
  | init => exact capInv_newClient config hosts
  | acquire env _ ih => exact capInv_getIdleConn _ _ env _ ih
  | wake env _ ih => exact capInv_wakeWaiter _ _ env _ ih
  | release p b _ _ hret ih => exact capInv_returnConn _ _ _ _ _ ih hret
  | raw env _ ih => exact capInv_OpenRawConn _ _ env _ ih
  | close _ ih => exact capInv_Close _ _ _ ih

/-- C1. Pool cap invariant: in every pool state reached from `newClient config hosts` by any
finite sequence of `getIdleConn` (on each of its branches), resumed waiters, `returnConn` of
connections on loan, `OpenRawConn` and `Close`, the per-host limit is still the one fixed at
construction (`ConnectionsPerHost`, or 5 when that was not positive), the host list is the
one given, every host `h` satisfies `numConnsPerHost[h] <= L` and
`numOpenConns() <= len(hosts) * L`. -/
theorem pool_cap_invariant (config : Config) (hosts : List String) (c : Client)
    (lent : List persistentConn) (hr : Reach config hosts c lent) :
    c.hosts = hosts ∧
    c.config.ConnectionsPerHost
      = (if config.ConnectionsPerHost ≤ 0 then 5 else config.ConnectionsPerHost) ∧
    (∀ h : String, mapGet c.numConnsPerHost h ≤ c.config.ConnectionsPerHost) ∧
    numOpenConns c ≤ (c.hosts.length : Int) * c.config.ConnectionsPerHost := by
  obtain ⟨h1, h2, _, h4, h5⟩ := capInv_of_reach config hosts c lent hr
  refine ⟨h2, by rw [h1, newClient_limit], ?_, ?_⟩
  · intro h; rw [h1]; exact h4 h
  · rw [h1, h2]; exact h5

/-- Witness of `pool_cap_invariant`: the pool after two acquisitions on two hosts with
limit 1. -/
theorem pool_cap_invariant_witness :
    numOpenConns (getIdleConn (getIdleConn
        (newClient { ConnectionsPerHost := 1 } ["[10.0.0.1]:21", "[10.0.0.2]:21"]) {}).1 {}).1
      ≤ 2 * 1 :=
  (pool_cap_invariant { ConnectionsPerHost := 1 } ["[10.0.0.1]:21", "[10.0.0.2]:21"] _ _
    (Reach.acquire {} (Reach.acquire {} Reach.init))).2.2.2

/-! ## Connection pool: the accounting invariant -/

theorem length_filter_idx (l : List persistentConn) (i : Int)
    (hnd : (l.map persistentConn.idx).Nodup) (hmem : i ∈ l.map persistentConn.idx) :
    ((l.filter (fun q => q.idx != i)).length : Int) = (l.length : Int) - 1 := by
  induction l with
  | nil => simp at hmem
  | cons x xs ih =>
    simp only [List.map_cons, List.nodup_cons] at hnd
    by_cases hx : x.idx = i
    · have hnot : i ∉ xs.map persistentConn.idx := by rw [← hx]; exact hnd.1
      have hall : xs.filter (fun q => q.idx != i) = xs := by
        rw [List.filter_eq_self]
        intro a ha
        have : a.idx ≠ i := fun e => hnot (by rw [← e]; exact List.mem_map_of_mem _ ha)
        simpa using this
      simp [List.filter_cons, hx, hall]
    · have hm : i ∈ xs.map persistentConn.idx := by
        simp only [List.map_cons, List.mem_cons] at hmem
        rcases hmem with e | e
        · exact absurd e.symm hx
        · exact e
      have := ih hnd.2 hm
      simp [List.filter_cons, hx, this]

theorem filter_idx_fresh (l : List persistentConn) (i : Int)
    (h : ∀ p ∈ l, p.idx < i) : l.filter (fun q => q.idx != i) = l := by
  rw [List.filter_eq_self]
  intro a ha
  have : a.idx ≠ i := by have := h a ha; omega
  simpa using this

theorem nodup_filter_idx (l : List persistentConn) (i : Int)
    (hnd : (l.map persistentConn.idx).Nodup) :
    ((l.filter (fun q => q.idx != i)).map persistentConn.idx).Nodup :=
  hnd.sublist ((List.filter_sublist l).map _)

theorem mem_filter_idx (l : List persistentConn) (i j : Int)
    (hj : j ∈ l.map persistentConn.idx) (hne : j ≠ i) :
    j ∈ (l.filter (fun q => q.idx != i)).map persistentConn.idx := by
  simp only [List.mem_map, List.mem_filter] at hj ⊢
  obtain ⟨a, ha, e⟩ := hj
  exact ⟨a, ⟨ha, by rw [e]; simpa using hne⟩, e⟩

theorem acctInv_evictBroken (x : persistentConn) (xs : List persistentConn) (c : Client)
    (lent : List persistentConn) (h : AcctInvQ (x :: xs) c lent) :
    AcctInvQ xs (evictBroken { c with freeConnCh := xs } x) lent := by
  obtain ⟨h1, h2, h3, h4, h5⟩ := h
  have hx : x.idx ∈ c.allCons.map persistentConn.idx := h4 x (by simp)
  simp only [List.cons_append, List.map_cons, List.nodup_cons] at h5
  refine ⟨?_, ?_, ?_, ?_, h5.2⟩
  · simp only [numOpenConns, evictBroken, removeConn, addConns, sum_mapSet]
    rw [length_filter_idx c.allCons x.idx h2 hx]
    simp only [numOpenConns] at h1
    omega
  · exact nodup_filter_idx _ _ h2
  · intro p hp
    simp only [evictBroken, removeConn, addConns, List.mem_filter] at hp
    exact h3 p hp.1
  · intro p hp
    simp only [evictBroken, removeConn, addConns]
    apply mem_filter_idx _ _ _ (h4 p (by simp [List.mem_append] at hp ⊢; tauto))
    intro e
    exact h5.1 (by rw [← e]; exact List.mem_map_of_mem _ hp)

theorem acctInv_take (x : persistentConn) (xs : List persistentConn) (c : Client)
    (lent : List persistentConn) (h : AcctInvQ (x :: xs) c lent) :
    AcctInv { c with freeConnCh := xs } (x :: lent) := by
  obtain ⟨h1, h2, h3, h4, h5⟩ := h
  refine ⟨h1, h2, h3, ?_, ?_⟩
  · intro p hp
    apply h4 p
    simp only [List.mem_append, List.mem_cons] at hp ⊢
    tauto
  · have hperm : List.Perm ((xs ++ x :: lent).map persistentConn.idx)
        (((x :: xs) ++ lent).map persistentConn.idx) :=
      (List.perm_middle).map _
    exact hperm.nodup_iff.2 h5

theorem acctInv_firstLoop (q : List persistentConn) (c : Client) (lent : List persistentConn)
    (h : AcctInvQ q c lent) :
    AcctInv (firstLoop q c).1
      (match (firstLoop q c).2 with
       | some p => p :: lent
       | none => lent) := by
  induction q generalizing c with
  | nil => exact h
  | cons x xs ih =>
    cases hx : x.broken with
    | true =>
      simp only [firstLoop, hx, if_true]
      exact ih _ (acctInv_evictBroken x xs c lent h)
    | false =>
      simp only [firstLoop, hx, Bool.false_eq_true, if_false]
      exact acctInv_take x xs c lent h

theorem openConn_cases (c : Client) (env : OpenEnv) (idx : Int) (host : String)
    (hc : c.closed = false) (hidx : 0 ≤ idx) :
    openConn c env idx host
        = ({ c with closeLog := c.closeLog ++ [idx] }, none, openConnNetErr env) ∨
    openConn c env idx host
        = ({ c with allCons := { idx := idx, host := host, broken := false }
              :: c.allCons.filter (fun q => q.idx != idx) },
            some { idx := idx, host := host, broken := false }, GoError.nil) := by
  unfold openConn
  simp only
  split
  · left; rfl
  · split
    · rename_i h; rw [hc] at h; exact absurd h (by decide)
    · right; rfl

theorem acctInv_openNew (c : Client) (env : OpenEnv) (lent : List persistentConn)
    (hc : c.closed = false) (h : AcctInv c lent) :
    AcctInv (openNew c env).1 (lentAfter (openNew c env).2 lent) := by
  obtain ⟨h1, h2, h3, h4, h5⟩ := h
  unfold openNew
  simp only
  split
  · refine ⟨h1, h2, ?_, h4, h5⟩
    intro p hp
    have := h3 p hp
    simp only [Nat.cast_add, Nat.cast_one]
    omega
  · generalize pickHost { c with connIdx := c.connIdx + 1 } (c.connIdx + 1) = host
    rcases openConn_cases (addConns { c with connIdx := c.connIdx + 1 } host 1) env
      ((c.connIdx + 1 : Nat) : Int) host hc (by positivity) with e | e
    · rw [e]
      simp only [lentAfter]
      refine ⟨?_, h2, ?_, h4, h5⟩
      · simp only [numOpenConns, addConns, sum_mapSet]
        simp only [numOpenConns] at h1
        omega
      · intro p hp
        have := h3 p hp
        simp only [addConns, Nat.cast_add, Nat.cast_one]
        omega
    · rw [e]
      simp only [lentAfter]
      have hfresh : ∀ p ∈ c.allCons, p.idx < ((c.connIdx + 1 : Nat) : Int) := by
        intro p hp
        have := h3 p hp
        simp only [Nat.cast_add, Nat.cast_one]
        omega
      have hnotin : ((c.connIdx + 1 : Nat) : Int) ∉ c.allCons.map persistentConn.idx := by
        intro hm
        simp only [List.mem_map] at hm
        obtain ⟨a, ha, e2⟩ := hm
        have := hfresh a ha
        omega
      have hfil := filter_idx_fresh c.allCons ((c.connIdx + 1 : Nat) : Int) hfresh
      simp only [addConns] at hfil ⊢
      refine ⟨?_, ?_, ?_, ?_, ?_⟩
      · simp only [numOpenConns, sum_mapSet, hfil, List.length_cons]
        simp only [numOpenConns] at h1
        push_cast
        omega
      · simp only [hfil, List.map_cons, List.nodup_cons]
        exact ⟨hnotin, h2⟩
      · intro p hp
        simp only [hfil, List.mem_cons] at hp
        rcases hp with e2 | e2
        · rw [e2]
        · exact le_of_lt (hfresh p e2)
      · intro p hp
        simp only [hfil, List.map_cons, List.mem_cons]
        simp only [List.mem_append, List.mem_cons] at hp
        rcases hp with e2 | e2 | e2
        · right; exact h4 p (by simp [e2])
        · left; rw [e2]
        · right; exact h4 p (by simp [e2])
      · have hperm : List.Perm
            ((c.freeConnCh ++ (⟨((c.connIdx + 1 : Nat) : Int), host, false⟩ : persistentConn)
                :: lent).map persistentConn.idx)
            (((c.connIdx + 1 : Nat) : Int) :: (c.freeConnCh ++ lent).map persistentConn.idx) :=
          (List.perm_middle).map _
        apply hperm.nodup_iff.2
        simp only [List.nodup_cons]
        refine ⟨?_, h5⟩
        intro hm
        simp only [List.mem_map] at hm
        obtain ⟨a, ha, e2⟩ := hm
        apply hnotin
        rw [← e2]
        exact h4 a ha

theorem evictBroken_closed (c : Client) (p : persistentConn) :
    (evictBroken c p).closed = c.closed := rfl

theorem firstLoop_closed (q : List persistentConn) (c : Client) :
    (firstLoop q c).1.closed = c.closed := by
  induction q generalizing c with
  | nil => rfl
  | cons x xs ih =>
    cases hx : x.broken with
    | true =>
      simp only [firstLoop, hx, if_true]
      rw [ih]
      rfl
    | false =>
      simp only [firstLoop, hx, Bool.false_eq_true, if_false]

theorem openNew_closed (c : Client) (env : OpenEnv) : (openNew c env).1.closed = c.closed := by
  unfold openNew
  simp only
  split
  · rfl
  · generalize pickHost { c with connIdx := c.connIdx + 1 } (c.connIdx + 1) = host
    have hf := openConn_frame (addConns { c with connIdx := c.connIdx + 1 } host 1) env
      ((c.connIdx + 1 : Nat) : Int) host
    split
    · rename_i c2 pc err heq
      rw [heq] at hf
      exact hf.2.2.2.2.2.2
    · rename_i c2 err heq
      rw [heq] at hf
      exact hf.2.2.2.2.2.2

theorem secondLoop_closed (env : OpenEnv) (q : List persistentConn) (c : Client) :
    (secondLoop env q c).1.closed = c.closed := by
  induction q generalizing c with
  | nil =>
    unfold secondLoop
    split
    · exact openNew_closed c env
    · rfl
  | cons x xs ih =>
    unfold secondLoop
    split
    · exact openNew_closed c env
    · cases hx : x.broken with
      | true =>
        simp only [hx, if_true]
        rw [ih]
        rfl
      | false =>
        simp only [hx, Bool.false_eq_true, if_false]

theorem getIdleConn_closed (c : Client) (env : OpenEnv) :
    (getIdleConn c env).1.closed = c.closed := by
  have h1 := firstLoop_closed c.freeConnCh c
  unfold getIdleConn
  split
  · rename_i c1 pc heq
    rw [heq] at h1
    exact h1
  · rename_i c1 heq
    rw [heq] at h1
    rw [secondLoop_closed]
    exact h1

theorem wakeWaiter_closed (c : Client) (env : OpenEnv) :
    (wakeWaiter c env).1.closed = c.closed := by
  unfold wakeWaiter
  split
  · rfl
  · rename_i x xs heq
    cases hx : x.broken with
    | true =>
      simp only [hx, if_true]
      rw [secondLoop_closed]
      rfl
    | false =>
      simp only [hx, Bool.false_eq_true, if_false]

theorem acctInv_secondLoop (env : OpenEnv) (q : List persistentConn) (c : Client)
    (lent : List persistentConn) (hq : c.freeConnCh = q) (hc : c.closed = false)
    (h : AcctInv c lent) :
    AcctInv (secondLoop env q c).1 (lentAfter (secondLoop env q c).2 lent) := by
  induction q generalizing c with
  | nil =>
    unfold secondLoop
    split
    · exact acctInv_openNew c env lent hc h
    · unfold AcctInv at h ⊢
      rw [hq] at h
      exact h
  | cons x xs ih =>
    have hQ : AcctInvQ (x :: xs) c lent := by
      unfold AcctInv at h
      rw [hq] at h
      exact h
    unfold secondLoop
    split
    · exact acctInv_openNew c env lent hc h
    · cases hx : x.broken with
      | true =>
        simp only [hx, if_true]
        exact ih _ rfl hc (acctInv_evictBroken x xs c lent hQ)
      | false =>
        simp only [hx, Bool.false_eq_true, if_false, lentAfter]
        exact acctInv_take x xs c lent hQ

theorem firstLoop_queue_none (q : List persistentConn) (c : Client)
    (h : (firstLoop q c).2 = none) : (firstLoop q c).1.freeConnCh = [] := by
  induction q generalizing c with
  | nil => rfl
  | cons x xs ih =>
    cases hx : x.broken with
    | true =>
      simp only [firstLoop, hx, if_true] at h ⊢
      exact ih _ h
    | false =>
      simp [firstLoop, hx] at h

theorem acctInv_getIdleConn (env : OpenEnv) (c : Client) (lent : List persistentConn)
    (hc : c.closed = false) (h : AcctInv c lent) :
    AcctInv (getIdleConn c env).1 (lentAfter (getIdleConn c env).2 lent) := by
  have h1 := acctInv_firstLoop c.freeConnCh c lent h
  have h2 := firstLoop_closed c.freeConnCh c
  unfold getIdleConn
  split
  · rename_i c1 pc heq
    rw [heq] at h1
    exact h1
  · rename_i c1 heq
    rw [heq] at h1 h2
    exact acctInv_secondLoop env _ c1 lent rfl (by rw [← hc]; exact h2) h1

theorem acctInv_wakeWaiter (env : OpenEnv) (c : Client) (lent : List persistentConn)
    (hc : c.closed = false) (h : AcctInv c lent) :
    AcctInv (wakeWaiter c env).1 (lentAfter (wakeWaiter c env).2 lent) := by
  unfold wakeWaiter
  split
  · exact h
  · rename_i x xs heq
    have hQ : AcctInvQ (x :: xs) c lent := by
      unfold AcctInv at h
      rw [heq] at h
      exact h
    cases hx : x.broken with
    | true =>
      simp only [hx, if_true]
      exact acctInv_secondLoop env xs _ lent rfl hc (acctInv_evictBroken x xs c lent hQ)
    | false =>
      simp only [hx, Bool.false_eq_true, if_false, lentAfter]
      exact acctInv_take x xs c lent hQ

theorem acctInv_returnConn (c c1 : Client) (lent : List persistentConn) (p : persistentConn)
    (b : Bool) (hp : p ∈ lent) (hr : returnConn c { p with broken := b } = some c1)
    (h : AcctInv c lent) : AcctInv c1 (lent.erase p) := by
  obtain ⟨h1, h2, h3, h4, h5⟩ := h
  unfold returnConn at hr
  split at hr
  · simp only [Option.some.injEq] at hr
    subst hr
    refine ⟨h1, h2, h3, ?_, ?_⟩
    · intro q hq
      simp only [List.mem_append, List.mem_singleton] at hq
      rcases hq with (e | e) | e
      · exact h4 q (by simp [e])
      · rw [e]
        exact h4 p (by simp [hp])
      · exact h4 q (by simp [List.mem_of_mem_erase e])
    · have e1 : ((c.freeConnCh ++ [{ p with broken := b }]) ++ lent.erase p).map
          persistentConn.idx = (c.freeConnCh ++ p :: lent.erase p).map persistentConn.idx := by
        simp
      have hperm : List.Perm ((c.freeConnCh ++ p :: lent.erase p).map persistentConn.idx)
          ((c.freeConnCh ++ lent).map persistentConn.idx) :=
        ((List.perm_cons_erase hp).symm.append_left c.freeConnCh).map _
      show (((c.freeConnCh ++ [{ p with broken := b }]) ++ lent.erase p).map
          persistentConn.idx).Nodup
      rw [e1]
      exact hperm.nodup_iff.2 h5
  · simp at hr

theorem openConn_raw (c : Client) (env : OpenEnv) (idx : Int) (host : String) (hidx : idx < 0) :
    (openConn c env idx host).1 = c ∨
    (openConn c env idx host).1 = { c with closeLog := c.closeLog ++ [idx] } := by
  unfold openConn
  simp only
  split
  · right; rfl
  · split
    · right; rfl
    · split
      · rename_i h; omega
      · left; rfl

theorem OpenRawConn_state (c : Client) (env : OpenEnv) :
    ∃ (n : Nat) (log : List Int),
      (OpenRawConn c env).1 = { c with rawConnIdx := n, closeLog := log } := by
  unfold OpenRawConn
  split
  · exact ⟨c.rawConnIdx, c.closeLog, rfl⟩
  · simp only
    rcases openConn_raw { c with rawConnIdx := c.rawConnIdx + 1 } env
      (-((c.rawConnIdx : Int) + 1)) (c.hosts.getD (c.rawConnIdx % c.hosts.length) "")
      (by omega) with e | e
    · split
      · rename_i c2 pc err heq
        rw [heq] at e
        simp only at e
        exact ⟨c.rawConnIdx + 1, c.closeLog, e⟩
      · rename_i c2 err heq
        rw [heq] at e
        simp only at e
        exact ⟨c.rawConnIdx + 1, c.closeLog, e⟩
    · split
      · rename_i c2 pc err heq
        rw [heq] at e
        simp only at e
        exact ⟨c.rawConnIdx + 1, _, e⟩
      · rename_i c2 err heq
        rw [heq] at e
        simp only at e
        exact ⟨c.rawConnIdx + 1, _, e⟩

theorem Close_closed (c : Client) : (Close c).1.closed = true := by
  unfold Close
  split
  · rename_i h; exact h
  · simp only [foldl_removeConn]

theorem acctInv_of_reach (config : Config) (hosts : List String) (c : Client)
    (lent : List persistentConn) (hr : Reach config hosts c lent) :
    c.closed = false → AcctInv c lent := by
  induction hr with
  | init =>
    intro _
    refine ⟨rfl, List.nodup_nil, ?_, ?_, List.nodup_nil⟩
    · intro p hp; exact absurd hp (List.not_mem_nil p)
    · intro p hp; exact absurd hp (List.not_mem_nil p)
  | acquire env _ ih =>
    intro hc
    rw [getIdleConn_closed] at hc
    exact acctInv_getIdleConn env _ _ hc (ih hc)
  | wake env _ ih =>
    intro hc
    rw [wakeWaiter_closed] at hc
    exact acctInv_wakeWaiter env _ _ hc (ih hc)
  | @release c0 c1 lent0 p b _ hp hret ih =>
    intro hc
    have hc0 : c0.closed = false := by
      have := hret
      unfold returnConn at this
      split at this
      · simp only [Option.some.injEq] at this
        rw [← this] at hc
        exact hc
      · simp at this
    exact acctInv_returnConn _ _ _ p b hp hret (ih hc0)
  | raw env _ ih =>
    intro hc
    obtain ⟨n, log, e⟩ := OpenRawConn_state _ env
    rw [e] at hc ⊢
    exact ih hc
  | close _ _ =>
    intro hc
    rw [Close_closed] at hc
    exact absurd hc (by decide)

theorem Close_counters (c : Client) : (Close c).1.numConnsPerHost = c.numConnsPerHost := by
  unfold Close
  split
  · rfl
  · simp only [foldl_removeConn]

/-- C9 (as amended). Pool accounting invariant: in every pool state reached from
`newClient config hosts` by `getIdleConn`, resumed waiters, `returnConn`, `OpenRawConn` and
`Close`, as long as the pool is not closed the sum of the per-host counters equals the
number of connections in the registry `allCons`. The eviction of a broken connection by
`getIdleConn` lowers the sum of the counters by one and removes the connection's entry from
the registry. `Close` empties the registry and leaves every host counter as it was. -/
theorem pool_accounting (config : Config) (hosts : List String) (c : Client)
    (lent : List persistentConn) (hr : Reach config hosts c lent) :
    (c.closed = false → numOpenConns c = (c.allCons.length : Int)) ∧
    (∀ p : persistentConn,
      numOpenConns (evictBroken c p) = numOpenConns c - 1 ∧
      mapGet (evictBroken c p).numConnsPerHost p.host = mapGet c.numConnsPerHost p.host - 1 ∧
      p.idx ∉ (evictBroken c p).allCons.map persistentConn.idx) ∧
    (Close c).1.numConnsPerHost = c.numConnsPerHost ∧
    (c.closed = false → (Close c).1.allCons = []) := by
  refine ⟨fun hc => (acctInv_of_reach config hosts c lent hr hc).1, ?_, Close_counters c, ?_⟩
  · intro p
    refine ⟨?_, ?_, ?_⟩
    · simp only [numOpenConns, evictBroken, removeConn, addConns, sum_mapSet]
      ring
    · simp only [evictBroken, removeConn, addConns, mapGet_mapSet, if_true]
      ring
    · simp only [evictBroken, removeConn, addConns, List.mem_map, List.mem_filter]
      rintro ⟨a, ⟨_, ha⟩, e⟩
      simp [e] at ha
  · intro hc
    simp only [Close, hc, Bool.false_eq_true, if_false, foldl_removeConn]
    simp only [List.filter_eq_nil_iff, decide_eq_true_eq, not_not]
    intro a ha
    exact List.mem_map_of_mem _ ha

/-- Witness of `pool_accounting`: the pool after two acquisitions on one host with the
default limit. -/
theorem pool_accounting_witness :
    numOpenConns (getIdleConn (getIdleConn (newClient {} ["[10.0.0.1]:21"]) {}).1 {}).1
      = ((getIdleConn (getIdleConn (newClient {} ["[10.0.0.1]:21"]) {}).1 {}).1.allCons.length
          : Int) :=
  (pool_accounting {} ["[10.0.0.1]:21"] _ _
    (Reach.acquire {} (Reach.acquire {} Reach.init))).1 (by decide)

/-- C9 as stated fails: after one acquisition and `Close`, a state reachable by the listed
operations, the host counters sum to 1 while the registry is empty. -/
theorem pool_accounting_fails_after_Close :
    Reach {} ["[10.0.0.1]:21"] (Close (getIdleConn (newClient {} ["[10.0.0.1]:21"]) {}).1).1
      (lentAfter (getIdleConn (newClient {} ["[10.0.0.1]:21"]) {}).2 []) ∧
    numOpenConns (Close (getIdleConn (newClient {} ["[10.0.0.1]:21"]) {}).1).1 = 1 ∧
    ((Close (getIdleConn (newClient {} ["[10.0.0.1]:21"]) {}).1).1.allCons.length : Int) = 0 ∧
    numOpenConns (Close (getIdleConn (newClient {} ["[10.0.0.1]:21"]) {}).1).1
      ≠ ((Close (getIdleConn (newClient {} ["[10.0.0.1]:21"]) {}).1).1.allCons.length : Int) :=
  ⟨Reach.close (Reach.acquire {} Reach.init), by decide, by decide, by decide⟩

/-! ## Connection pool: host selection -/

/-- C10, evaluated at the failing input. `lookupHosts` passes a literal address given twice
on as two equal endpoints. With the host list `[h, h]` (one endpoint given twice) and `ConnectionsPerHost = 1`, after one successful `getIdleConn` whose connection is
still on loan, the pool is under the global cap (1 < 2 * 1), yet the scan of the next
`getIdleConn` finds no host under its limit and the call panics with
"this shouldn't be possible". -/
theorem getIdleConn_panics_with_duplicate_hosts :
    (lookupHosts literalNet ["10.0.0.1", "10.0.0.1"] false).result
      = Except.ok ["[10.0.0.1]:21", "[10.0.0.1]:21"] ∧
    Reach { ConnectionsPerHost := 1 } ["[10.0.0.1]:21", "[10.0.0.1]:21"]
      (getIdleConn (newClient { ConnectionsPerHost := 1 }
        ["[10.0.0.1]:21", "[10.0.0.1]:21"]) {}).1
      (lentAfter (getIdleConn (newClient { ConnectionsPerHost := 1 }
        ["[10.0.0.1]:21", "[10.0.0.1]:21"]) {}).2 []) ∧
    (getIdleConn (newClient { ConnectionsPerHost := 1 }
        ["[10.0.0.1]:21", "[10.0.0.1]:21"]) {}).2
      = AcquireResult.conn ⟨1, "[10.0.0.1]:21", false⟩ ∧
    numOpenConns (getIdleConn (newClient { ConnectionsPerHost := 1 }
        ["[10.0.0.1]:21", "[10.0.0.1]:21"]) {}).1 = 1 ∧
    ((getIdleConn (newClient { ConnectionsPerHost := 1 }
        ["[10.0.0.1]:21", "[10.0.0.1]:21"]) {}).1.hosts.length : Int)
      * (getIdleConn (newClient { ConnectionsPerHost := 1 }
        ["[10.0.0.1]:21", "[10.0.0.1]:21"]) {}).1.config.ConnectionsPerHost = 2 ∧
    (getIdleConn (getIdleConn (newClient { ConnectionsPerHost := 1 }
        ["[10.0.0.1]:21", "[10.0.0.1]:21"]) {}).1 {}).2
      = AcquireResult.panicked "this shouldn't be possible" :=
  ⟨by decide, Reach.acquire {} Reach.init, by decide, by decide, by decide, by decide⟩

/-! ## Connection pool: host selection on duplicate-free host lists -/

theorem keys_mapSet (m : List (String × Int)) (k : String) (v : Int) :
    (mapSet m k v).map Prod.fst
      = if k ∈ m.map Prod.fst then m.map Prod.fst else m.map Prod.fst ++ [k] := by
  induction m with
  | nil => simp [mapSet]
  | cons kv rest ih =>
    obtain ⟨k1, v1⟩ := kv
    by_cases e : k1 = k
    · simp [mapSet, e]
    · have e2 : ¬ k = k1 := fun x => e x.symm
      simp only [mapSet, e, if_false, List.map_cons, ih, List.mem_cons, e2, false_or]
      split_ifs <;> simp

theorem keys_mapSet_inv (hosts : List String) (m : List (String × Int)) (k : String) (v : Int)
    (hnd : (m.map Prod.fst).Nodup) (hsub : ∀ x ∈ m.map Prod.fst, x ∈ hosts) (hk : k ∈ hosts) :
    ((mapSet m k v).map Prod.fst).Nodup ∧ ∀ x ∈ (mapSet m k v).map Prod.fst, x ∈ hosts := by
  rw [keys_mapSet]
  split_ifs with h
  · exact ⟨hnd, hsub⟩
  · constructor
    · rw [List.nodup_append]
      refine ⟨hnd, List.nodup_singleton k, ?_⟩
      intro a ha hb
      simp only [List.mem_singleton] at hb
      subst hb
      exact h ha
    · intro x hx
      simp only [List.mem_append, List.mem_singleton] at hx
      rcases hx with hx | hx
      · exact hsub x hx
      · rw [hx]; exact hk

theorem hostInv_evictBroken (hosts : List String) (x : persistentConn)
    (xs : List persistentConn) (c : Client) (lent : List persistentConn)
    (h : HostInvQ hosts (x :: xs) c lent) :
    HostInvQ hosts xs (evictBroken { c with freeConnCh := xs } x) lent := by
  obtain ⟨h1, h2, h3, h4⟩ := h
  have hx : x.host ∈ hosts := h4 x (by simp)
  obtain ⟨k1, k2⟩ := keys_mapSet_inv hosts c.numConnsPerHost x.host
    (mapGet c.numConnsPerHost x.host + -1) h2 h3 hx
  exact ⟨h1, k1, k2, fun p hp => h4 p (by simp only [List.cons_append, List.mem_cons]; right; exact hp)⟩

theorem hostInv_take (hosts : List String) (x : persistentConn) (xs : List persistentConn)
    (c : Client) (lent : List persistentConn) (h : HostInvQ hosts (x :: xs) c lent) :
    HostInv hosts { c with freeConnCh := xs } (x :: lent) := by
  obtain ⟨h1, h2, h3, h4⟩ := h
  refine ⟨h1, h2, h3, ?_⟩
  intro p hp
  apply h4 p
  simp only [List.mem_append, List.mem_cons] at hp ⊢
  tauto

theorem pickHost_mem (c : Client) (idx : Nat) :
    pickHost c idx = "" ∨ pickHost c idx ∈ c.hosts := by
  unfold pickHost
  split
  · rename_i i heq
    right
    have hi := List.mem_of_find?_eq_some heq
    simp only [List.mem_range'_1] at hi
    have hpos : 0 < c.hosts.length := by omega
    have hlt : i % c.hosts.length < c.hosts.length := Nat.mod_lt _ hpos
    rw [List.getD_eq_getElem _ _ hlt]
    exact List.getElem_mem _
  · left; rfl
theorem mapGet_eq_zero (m : List (String × Int)) (k : String) (h : k ∉ m.map Prod.fst) :
    mapGet m k = 0 := by
  induction m with
  | nil => rfl
  | cons kv rest ih =>
    obtain ⟨k1, v1⟩ := kv
    simp only [List.map_cons, List.mem_cons, not_or] at h
    have e : ¬ k1 = k := fun x => h.1 x.symm
    simp [mapGet, e, ih h.2]

theorem sum_map_update (hosts : List String) (k : String) (v : Int) (f : String → Int)
    (hnd : hosts.Nodup) (hk : k ∈ hosts) :
    (hosts.map (fun h => if k = h then v else f h)).sum = (hosts.map f).sum - f k + v := by
  induction hosts with
  | nil => simp at hk
  | cons x xs ih =>
    simp only [List.nodup_cons] at hnd
    by_cases e : k = x
    · subst e
      have hrest : xs.map (fun h => if k = h then v else f h) = xs.map f := by
        apply List.map_congr_left
        intro a ha
        have : ¬ k = a := fun t => hnd.1 (t ▸ ha)
        simp [this]
      simp only [List.map_cons, List.sum_cons, if_true, hrest]
      ring
    · have hk2 : k ∈ xs := by
        simp only [List.mem_cons] at hk
        rcases hk with t | t
        · exact absurd t e
        · exact t
      simp only [List.map_cons, List.sum_cons, e, if_false, ih hnd.2 hk2]
      ring

theorem sum_counters_eq (hosts : List String) (m : List (String × Int))
    (hh : hosts.Nodup) (hnd : (m.map Prod.fst).Nodup) (hsub : ∀ x ∈ m.map Prod.fst, x ∈ hosts) :
    (m.map Prod.snd).sum = (hosts.map (mapGet m)).sum := by
  induction m with
  | nil =>
    have : hosts.map (mapGet []) = hosts.map (fun _ => (0 : Int)) := by
      apply List.map_congr_left
      intro a _
      rfl
    rw [this]
    simp
  | cons kv rest ih =>
    obtain ⟨k, v⟩ := kv
    simp only [List.map_cons, List.nodup_cons] at hnd
    have hk : k ∈ hosts := hsub k (by simp)
    have hrest := ih hnd.2 (fun x hx => hsub x (by simp [hx]))
    have hfun : mapGet ((k, v) :: rest) = fun h => if k = h then v else mapGet rest h := by
      funext h
      simp [mapGet]
    rw [hfun, sum_map_update hosts k v (mapGet rest) hh hk, mapGet_eq_zero rest k hnd.1]
    simp only [List.map_cons, List.sum_cons, hrest]
    ring

theorem sum_ge_of_all_ge (hosts : List String) (f : String → Int) (L : Int)
    (h : ∀ x ∈ hosts, L ≤ f x) : (hosts.length : Int) * L ≤ (hosts.map f).sum := by
  induction hosts with
  | nil => simp
  | cons x xs ih =>
    have h1 := h x (by simp)
    have h2 := ih (fun a ha => h a (by simp [ha]))
    simp only [List.length_cons, List.map_cons, List.sum_cons]
    push_cast
    linarith

theorem cyclic_cover (idx n j : Nat) (hj : j < n) :
    ∃ i, i ∈ List.range' idx n ∧ i % n = j := by
  have hpos : 0 < n := by omega
  have h1 : idx % n < n := Nat.mod_lt _ hpos
  refine ⟨idx + (j + n - idx % n) % n, ?_, ?_⟩
  · simp only [List.mem_range'_1]
    have : (j + n - idx % n) % n < n := Nat.mod_lt _ hpos
    omega
  · rw [Nat.add_mod, Nat.mod_mod, ← Nat.add_mod]
    have hd := Nat.div_add_mod idx n
    have : idx + (j + n - idx % n) = j + n * (idx / n + 1) := by
      rw [Nat.mul_add, Nat.mul_one]
      omega
    rw [this, Nat.add_mul_mod_self_left, Nat.mod_eq_of_lt hj]

/-- On a duplicate-free host list without the empty name, a pool under the global cap has
a host under its limit, and the scan returns one. -/
theorem pickHost_ne_empty (hosts : List String) (c : Client) (idx : Nat)
    (hh : hosts.Nodup) (he : "" ∉ hosts) (h1 : c.hosts = hosts)
    (h2 : (c.numConnsPerHost.map Prod.fst).Nodup)
    (h3 : ∀ k ∈ c.numConnsPerHost.map Prod.fst, k ∈ hosts)
    (hlt : numOpenConns c < (c.hosts.length : Int) * c.config.ConnectionsPerHost) :
    pickHost c idx ≠ "" := by
  intro hp
  rcases pickHost_mem c idx with hm | hm
  · -- the scan found nothing: every host is at its limit
    have hnone : (List.range' idx c.hosts.length).find? (fun i =>
        decide (mapGet c.numConnsPerHost (c.hosts.getD (i % c.hosts.length) "")
          < c.config.ConnectionsPerHost)) = none := by
      unfold pickHost at hp
      split at hp
      · rename_i i heq
        have hi := List.mem_of_find?_eq_some heq
        simp only [List.mem_range'_1] at hi
        have hpos : 0 < c.hosts.length := by omega
        have hlt2 : i % c.hosts.length < c.hosts.length := Nat.mod_lt _ hpos
        rw [List.getD_eq_getElem _ _ hlt2] at hp
        have : c.hosts[i % c.hosts.length] ∈ c.hosts := List.getElem_mem _
        rw [hp, h1] at this
        exact absurd this he
      · rename_i heq; exact heq
    have hall : ∀ x ∈ c.hosts, c.config.ConnectionsPerHost ≤ mapGet c.numConnsPerHost x := by
      intro x hx
      obtain ⟨j, hj, hxj⟩ := List.getElem_of_mem hx
      obtain ⟨i, hi, hij⟩ := cyclic_cover idx c.hosts.length j hj
      have := List.find?_eq_none.1 hnone i hi
      simp only [decide_eq_true_eq, not_lt] at this
      rw [hij, List.getD_eq_getElem _ _ hj, hxj] at this
      exact this
    have hs := sum_ge_of_all_ge c.hosts (mapGet c.numConnsPerHost) _ hall
    have he2 := sum_counters_eq c.hosts c.numConnsPerHost (h1 ▸ hh) h2 (fun x hx => h1 ▸ h3 x hx)
    unfold numOpenConns at hlt
    omega
  · rw [hp, h1] at hm
    exact he hm
theorem openConn_conn_host (c : Client) (env : OpenEnv) (idx : Int) (host : String)
    (p : persistentConn) (h : (openConn c env idx host).2.1 = some p) : p.host = host := by
  unfold openConn at h
  simp only at h
  split at h
  · simp at h
  · split at h
    · simp at h
    · split at h
      · simp only [Option.some.injEq] at h
        rw [← h]
      · simp only [Option.some.injEq] at h
        rw [← h]

theorem hostInv_firstLoop (hosts : List String) (q : List persistentConn) (c : Client)
    (lent : List persistentConn) (h : HostInvQ hosts q c lent) :
    HostInv hosts (firstLoop q c).1
      (match (firstLoop q c).2 with
       | some p => p :: lent
       | none => lent) := by
  induction q generalizing c with
  | nil => exact h
  | cons x xs ih =>
    cases hx : x.broken with
    | true =>
      simp only [firstLoop, hx, if_true]
      exact ih _ (hostInv_evictBroken hosts x xs c lent h)
    | false =>
      simp only [firstLoop, hx, Bool.false_eq_true, if_false]
      exact hostInv_take hosts x xs c lent h

theorem hostInv_openNew (hosts : List String) (c : Client) (env : OpenEnv)
    (lent : List persistentConn) (h : HostInv hosts c lent) :
    HostInv hosts (openNew c env).1 (lentAfter (openNew c env).2 lent) := by
  obtain ⟨h1, h2, h3, h4⟩ := h
  unfold openNew
  simp only
  split
  · exact ⟨h1, h2, h3, h4⟩
  · rename_i hne
    have hmem : pickHost { c with connIdx := c.connIdx + 1 } (c.connIdx + 1) ∈ hosts := by
      rcases pickHost_mem { c with connIdx := c.connIdx + 1 } (c.connIdx + 1) with t | t
      · exact absurd t hne
      · rw [← h1]; exact t
    generalize pickHost { c with connIdx := c.connIdx + 1 } (c.connIdx + 1) = host at hmem hne
    obtain ⟨k1, k2⟩ := keys_mapSet_inv hosts c.numConnsPerHost host
      (mapGet c.numConnsPerHost host + 1) h2 h3 hmem
    have hf := openConn_frame (addConns { c with connIdx := c.connIdx + 1 } host 1) env
      ((c.connIdx + 1 : Nat) : Int) host
    obtain ⟨_, f2, f3, f4, _, _, _⟩ := hf
    have hc := openConn_conn_host (addConns { c with connIdx := c.connIdx + 1 } host 1) env
      ((c.connIdx + 1 : Nat) : Int) host
    split
    · rename_i c2 pc err heq
      rw [heq] at f2 f3 f4 hc
      simp only at f2 f3 f4 hc
      have hpc : pc.host = host := hc pc rfl
      refine ⟨by rw [f2]; exact h1, by rw [f3]; exact k1, by rw [f3]; exact k2, ?_⟩
      intro p hp
      simp only [lentAfter] at hp
      rw [f4] at hp
      simp only [addConns, List.mem_append, List.mem_cons] at hp
      rcases hp with t | t | t
      · exact h4 p (by simp [t])
      · rw [t, hpc]; exact hmem
      · exact h4 p (by simp [t])
    · rename_i c2 err heq
      rw [heq] at f2 f3 f4
      simp only at f2 f3 f4
      obtain ⟨m1, m2⟩ := keys_mapSet_inv hosts c2.numConnsPerHost host
        (mapGet c2.numConnsPerHost host + -1) (by rw [f3]; exact k1) (by rw [f3]; exact k2) hmem
      refine ⟨by simp only [addConns]; rw [f2]; exact h1, m1, m2, ?_⟩
      intro p hp
      simp only [lentAfter, addConns] at hp
      rw [f4] at hp
      exact h4 p hp

theorem openNew_no_panic (hosts : List String) (c : Client) (env : OpenEnv)
    (lent : List persistentConn) (hh : hosts.Nodup) (he : "" ∉ hosts)
    (h : HostInv hosts c lent)
    (hlt : numOpenConns c < (c.hosts.length : Int) * c.config.ConnectionsPerHost)
    (msg : String) : (openNew c env).2 ≠ AcquireResult.panicked msg := by
  obtain ⟨h1, h2, h3, _⟩ := h
  have hp := pickHost_ne_empty hosts { c with connIdx := c.connIdx + 1 } (c.connIdx + 1)
    hh he h1 h2 h3 hlt
  unfold openNew
  simp only
  rw [if_neg hp]
  split <;> simp

theorem hostInv_secondLoop (hosts : List String) (env : OpenEnv) (q : List persistentConn)
    (c : Client) (lent : List persistentConn) (hq : c.freeConnCh = q)
    (h : HostInv hosts c lent) :
    HostInv hosts (secondLoop env q c).1 (lentAfter (secondLoop env q c).2 lent) ∧
    (hosts.Nodup → "" ∉ hosts →
      ∀ msg : String, (secondLoop env q c).2 ≠ AcquireResult.panicked msg) := by
  induction q generalizing c with
  | nil =>
    unfold secondLoop
    split
    · rename_i hlt
      exact ⟨hostInv_openNew hosts c env lent h,
        fun hh he msg => openNew_no_panic hosts c env lent hh he h hlt msg⟩
    · refine ⟨?_, fun _ _ msg => by simp⟩
      unfold HostInv at h ⊢
      rw [hq] at h
      exact h
  | cons x xs ih =>
    have hQ : HostInvQ hosts (x :: xs) c lent := by
      unfold HostInv at h
      rw [hq] at h
      exact h
    unfold secondLoop
    split
    · rename_i hlt
      exact ⟨hostInv_openNew hosts c env lent h,
        fun hh he msg => openNew_no_panic hosts c env lent hh he h hlt msg⟩
    · cases hx : x.broken with
      | true =>
        simp only [hx, if_true]
        exact ih _ rfl (hostInv_evictBroken hosts x xs c lent hQ)
      | false =>
        simp only [hx, Bool.false_eq_true, if_false, lentAfter]
        exact ⟨hostInv_take hosts x xs c lent hQ, fun _ _ msg => by simp⟩

theorem hostInv_getIdleConn (hosts : List String) (env : OpenEnv) (c : Client)
    (lent : List persistentConn) (h : HostInv hosts c lent) :
    HostInv hosts (getIdleConn c env).1 (lentAfter (getIdleConn c env).2 lent) ∧
    (hosts.Nodup → "" ∉ hosts →
      ∀ msg : String, (getIdleConn c env).2 ≠ AcquireResult.panicked msg) := by
  have h1 := hostInv_firstLoop hosts c.freeConnCh c lent h
  unfold getIdleConn
  split
  · rename_i c1 pc heq
    rw [heq] at h1
    exact ⟨h1, fun _ _ msg => by simp⟩
  · rename_i c1 heq
    rw [heq] at h1
    exact hostInv_secondLoop hosts env _ c1 lent rfl h1

theorem hostInv_wakeWaiter (hosts : List String) (env : OpenEnv) (c : Client)
    (lent : List persistentConn) (h : HostInv hosts c lent) :
    HostInv hosts (wakeWaiter c env).1 (lentAfter (wakeWaiter c env).2 lent) ∧
    (hosts.Nodup → "" ∉ hosts →
      ∀ msg : String, (wakeWaiter c env).2 ≠ AcquireResult.panicked msg) := by
  unfold wakeWaiter
  split
  · exact ⟨h, fun _ _ msg => by simp⟩
  · rename_i x xs heq
    have hQ : HostInvQ hosts (x :: xs) c lent := by
      unfold HostInv at h
      rw [heq] at h
      exact h
    cases hx : x.broken with
    | true =>
      simp only [hx, if_true]
      exact hostInv_secondLoop hosts env xs _ lent rfl (hostInv_evictBroken hosts x xs c lent hQ)
    | false =>
      simp only [hx, Bool.false_eq_true, if_false, lentAfter]
      exact ⟨hostInv_take hosts x xs c lent hQ, fun _ _ msg => by simp⟩

theorem hostInv_returnConn (hosts : List String) (c c1 : Client) (lent : List persistentConn)
    (p : persistentConn) (b : Bool) (hp : p ∈ lent)
    (hr : returnConn c { p with broken := b } = some c1) (h : HostInv hosts c lent) :
    HostInv hosts c1 (lent.erase p) := by
  obtain ⟨h1, h2, h3, h4⟩ := h
  unfold returnConn at hr
  split at hr
  · simp only [Option.some.injEq] at hr
    subst hr
    refine ⟨h1, h2, h3, ?_⟩
    intro q hq
    simp only [List.mem_append, List.mem_singleton] at hq
    rcases hq with (e | e) | e
    · exact h4 q (by simp [e])
    · rw [e]
      exact h4 p (by simp [hp])
    · exact h4 q (by simp [List.mem_of_mem_erase e])
  · simp at hr

theorem hostInv_of_reach (config : Config) (hosts : List String) (c : Client)
    (lent : List persistentConn) (hr : Reach config hosts c lent) : HostInv hosts c lent := by
  induction hr with
  | init =>
    refine ⟨rfl, List.nodup_nil, ?_, ?_⟩
    · intro k hk; exact absurd hk (List.not_mem_nil k)
    · intro p hp; exact absurd hp (List.not_mem_nil p)
  | acquire env _ ih => exact (hostInv_getIdleConn hosts env _ _ ih).1
  | wake env _ ih => exact (hostInv_wakeWaiter hosts env _ _ ih).1
  | release p b _ hp hret ih => exact hostInv_returnConn hosts _ _ _ p b hp hret ih
  | raw env _ ih =>
    obtain ⟨n, log, e⟩ := OpenRawConn_state _ env
    rw [e]
    exact ih
  | @close c0 lent0 _ ih =>
    have e : ∃ (a : List persistentConn) (b : Bool) (l : List Int),
        (Close c0).1 = { c0 with allCons := a, closed := b, closeLog := l } := by
      unfold Close
      split
      · exact ⟨c0.allCons, c0.closed, c0.closeLog, rfl⟩
      · simp only [foldl_removeConn]
        exact ⟨_, _, _, rfl⟩
    obtain ⟨a, b, l, e⟩ := e
    rw [e]
    exact ih

/-- Host selection on duplicate-free host lists. In every pool state reached from
`newClient config hosts`, when no endpoint occurs twice in `hosts` and none is the empty
string: whenever `numOpenConns() < len(hosts) * ConnectionsPerHost`, the scan of
`getIdleConn` started at any cursor returns a host of the list whose counter is below
`ConnectionsPerHost`, and neither `getIdleConn` nor a resumed waiter panics. -/
theorem host_selection_without_duplicates (config : Config) (hosts : List String)
    (c : Client) (lent : List persistentConn) (hr : Reach config hosts c lent)
    (hh : hosts.Nodup) (he : "" ∉ hosts) (env : OpenEnv) (msg : String) :
    (getIdleConn c env).2 ≠ AcquireResult.panicked msg ∧
    (wakeWaiter c env).2 ≠ AcquireResult.panicked msg ∧
    (numOpenConns c < (c.hosts.length : Int) * c.config.ConnectionsPerHost →
      ∀ idx : Nat, pickHost c idx ∈ hosts ∧
        mapGet c.numConnsPerHost (pickHost c idx) < c.config.ConnectionsPerHost) := by
  have hi := hostInv_of_reach config hosts c lent hr
  refine ⟨(hostInv_getIdleConn hosts env c lent hi).2 hh he msg,
    (hostInv_wakeWaiter hosts env c lent hi).2 hh he msg, ?_⟩
  intro hlt idx
  obtain ⟨h1, h2, h3, _⟩ := hi
  have hne := pickHost_ne_empty hosts c idx hh he h1 h2 h3 hlt
  constructor
  · rcases pickHost_mem c idx with t | t
    · exact absurd t hne
    · rw [← h1]; exact t
  · rcases pickHost_under_limit c idx with t | t
    · exact absurd t hne
    · exact t

/-- Witness of `host_selection_without_duplicates`: two distinct hosts, limit 1, one
connection on loan. -/
theorem host_selection_without_duplicates_witness :
    (getIdleConn (getIdleConn (newClient { ConnectionsPerHost := 1 }
        ["[10.0.0.1]:21", "[10.0.0.2]:21"]) {}).1 {}).2
      ≠ AcquireResult.panicked "this shouldn't be possible" :=
  (host_selection_without_duplicates { ConnectionsPerHost := 1 }
    ["[10.0.0.1]:21", "[10.0.0.2]:21"] _ _ (Reach.acquire {} Reach.init)
    (by decide) (by decide) {} "this shouldn't be possible").1

/-! ## Transfer engine -/

theorem attemptOffsets_append (a b : List Event) :
    attemptOffsets (a ++ b) = attemptOffsets a ++ attemptOffsets b := by
  induction a with
  | nil => rfl
  | cons x xs ih => cases x <;> simp [attemptOffsets, ih]

theorem seekOffsets_append (a b : List Event) :
    seekOffsets (a ++ b) = seekOffsets a ++ seekOffsets b := by
  induction a with
  | nil => rfl
  | cons x xs ih => cases x <;> simp [seekOffsets, ih]

theorem restCommand_trace (o : Int) :
    attemptOffsets (restCommand o) = [] ∧ seekOffsets (restCommand o) = [] := by
  unfold restCommand
  split_ifs <;> exact ⟨rfl, rfl⟩

theorem transferCopy_trace (env : TransferEnv) (ev : List Event) :
    attemptOffsets (transferCopy env ev).1 = attemptOffsets ev ∧
    seekOffsets (transferCopy env ev).1 = seekOffsets ev := by
  unfold transferCopy
  split_ifs <;>
    simp [attemptOffsets_append, seekOffsets_append, attemptOffsets, seekOffsets]

theorem transferCommand_trace (env : TransferEnv) (path cmd : String) (ev : List Event) :
    attemptOffsets (transferCommand env path cmd ev).1 = attemptOffsets ev ∧
    seekOffsets (transferCommand env path cmd ev).1 = seekOffsets ev := by
  unfold transferCommand
  split_ifs
  · simp [attemptOffsets_append, seekOffsets_append, attemptOffsets, seekOffsets]
  · simp [attemptOffsets_append, seekOffsets_append, attemptOffsets, seekOffsets]
  · rw [(transferCopy_trace _ _).1, (transferCopy_trace _ _).2]
    simp [attemptOffsets_append, seekOffsets_append, attemptOffsets, seekOffsets]

theorem transferFromOffset_trace (env : TransferEnv) (path : String) (d s : Bool) (o : Int) :
    attemptOffsets (transferFromOffset env path d s o).1 = [o] ∧
    seekOffsets (transferFromOffset env path d s o).1 = [] := by
  have hr := restCommand_trace o
  unfold transferFromOffset
  split_ifs
  · exact ⟨rfl, rfl⟩
  · exact ⟨rfl, rfl⟩
  · simp [attemptOffsets_append, seekOffsets_append, attemptOffsets, seekOffsets, hr.1, hr.2]
  · simp [attemptOffsets_append, seekOffsets_append, attemptOffsets, seekOffsets, hr.1, hr.2]
  · rw [(transferCommand_trace _ _ _ _).1, (transferCommand_trace _ _ _ _).2]
    simp [attemptOffsets_append, seekOffsets_append, attemptOffsets, seekOffsets, hr.1, hr.2]
  · rw [(transferCommand_trace _ _ _ _).1, (transferCommand_trace _ _ _ _).2]
    simp [attemptOffsets_append, seekOffsets_append, attemptOffsets, seekOffsets, hr.1, hr.2]
  · simp [attemptOffsets_append, seekOffsets_append, attemptOffsets, seekOffsets, hr.1, hr.2]

theorem size_trace (env : SizeEnv) (path : String) :
    attemptOffsets (size env path).1 = [] ∧ seekOffsets (size env path).1 = [] := by
  unfold size
  split_ifs
  · exact ⟨rfl, rfl⟩
  · exact ⟨rfl, rfl⟩
  · exact ⟨rfl, rfl⟩
  · exact ⟨rfl, rfl⟩
  · exact ⟨rfl, rfl⟩
  · simp only
    split <;> exact ⟨rfl, rfl⟩

theorem transferCopy_count (env : TransferEnv) (ev : List Event) :
    returnedCount (transferCopy env ev) = env.copyN := by
  unfold transferCopy
  split_ifs <;> rfl

theorem transferCommand_count (env : TransferEnv) (path cmd : String) (ev : List Event) :
    returnedCount (transferCommand env path cmd ev) = 0 ∨
    returnedCount (transferCommand env path cmd ev) = env.copyN := by
  unfold transferCommand
  split_ifs
  · left; rfl
  · left; rfl
  · right; exact transferCopy_count _ _

theorem transferFromOffset_count (env : TransferEnv) (path : String) (d s : Bool) (o : Int) :
    returnedCount (transferFromOffset env path d s o) = 0 ∨
    returnedCount (transferFromOffset env path d s o) = env.copyN := by
  unfold transferFromOffset
  split_ifs
  · left; rfl
  · left; rfl
  · left; rfl
  · left; rfl
  · exact transferCommand_count _ _ _ _
  · exact transferCommand_count _ _ _ _
  · left; rfl

theorem wrapInt64_id (x : Int) (h0 : 0 ≤ x) (h1 : x < 2 ^ 63) : wrapInt64 x = x := by
  unfold wrapInt64
  norm_num at h1 ⊢
  omega
theorem retrieveStep_spec (env : TransferEnv) (path : String) (d resumable : Bool) (b : Int) :
    attemptOffsets (retrieveStep env path d resumable b).1 = [b] ∧
    (∀ (b1 : Int) (e : GoError),
      (retrieveStep env path d resumable b).2 = LoopStep.again b1 e →
      b1 = wrapInt64 (b + returnedCount (transferFromOffset env path d true b)) ∧
      returnedCount (transferFromOffset env path d true b) ≠ 0) := by
  have ht := (transferFromOffset_trace env path d true b).1
  unfold retrieveStep
  cases h : transferFromOffset env path d true b with
  | mk ev t =>
    rw [h] at ht
    cases t with
    | panicked m => exact ⟨ht, fun b1 e hh => by simp at hh⟩
    | returned n err =>
      simp only [returnedCount]
      split_ifs
      · exact ⟨ht, fun b1 e hh => by simp at hh⟩
      · exact ⟨ht, fun b1 e hh => by simp at hh⟩
      · exact ⟨ht, fun b1 e hh => by simp at hh⟩
      · rename_i h1 h2 h3
        refine ⟨ht, fun b1 e hh => ?_⟩
        simp only [LoopStep.again.injEq] at hh
        exact ⟨hh.1.symm, h2⟩

theorem zipCounts_nonneg (path : String) (d : Bool) (envs : List TransferEnv)
    (offs : List Int) (hn : ∀ e ∈ envs, 0 ≤ e.copyN) :
    ∀ x ∈ List.zipWith (fun e o => returnedCount (transferFromOffset e path d true o))
      envs offs, 0 ≤ x := by
  induction envs generalizing offs with
  | nil => intro x hx; simp at hx
  | cons e es ih =>
    cases offs with
    | nil => intro x hx; simp at hx
    | cons o os =>
      intro x hx
      simp only [List.zipWith_cons_cons, List.mem_cons] at hx
      rcases hx with h | h
      · rcases transferFromOffset_count e path d true o with h0 | h0
        · rw [h, h0]
        · rw [h, h0]; exact hn e (by simp)
      · exact ih os (fun a ha => hn a (by simp [ha])) x h

theorem retrieveLoop_offsets (path : String) (d resumable : Bool) (envs : List TransferEnv)
    (b : Int) (hb : 0 ≤ b) (hn : ∀ e ∈ envs, 0 ≤ e.copyN)
    (hsum : b + (envs.map TransferEnv.copyN).sum < 2 ^ 63) :
    ∀ (k : Nat) (o : Int),
      (attemptOffsets (retrieveLoop path d resumable envs b).1)[k]? = some o →
      o = b + ((List.zipWith
          (fun e x => returnedCount (transferFromOffset e path d true x)) envs
          (attemptOffsets (retrieveLoop path d resumable envs b).1)).take k).sum ∧
      (0 < k → b < o) := by
  induction envs generalizing b with
  | nil =>
    intro k o hk
    simp [retrieveLoop, attemptOffsets] at hk
  | cons env rest ih =>
    intro k o hk
    obtain ⟨hs1, hs2⟩ := retrieveStep_spec env path d resumable b
    have hcnt := transferFromOffset_count env path d true b
    have hn0 : 0 ≤ env.copyN := hn env (by simp)
    simp only [List.map_cons, List.sum_cons] at hsum
    have hrest : 0 ≤ (rest.map TransferEnv.copyN).sum :=
      List.sum_nonneg (by
        intro x hx
        simp only [List.mem_map] at hx
        obtain ⟨e, he, rfl⟩ := hx
        exact hn e (by simp [he]))
    unfold retrieveLoop at hk ⊢
    cases hstep : retrieveStep env path d resumable b with
    | mk ev st =>
      rw [hstep] at hs1 hs2
      simp only at hs1 hs2
      cases st with
      | again b1 e1 =>
        obtain ⟨hb1, hne⟩ := hs2 b1 e1 rfl
        have hcp : returnedCount (transferFromOffset env path d true b) = env.copyN := by
          rcases hcnt with h0 | h0
          · exact absurd h0 hne
          · exact h0
        have hb1v : b1 = b + env.copyN := by
          rw [hb1, hcp]
          exact wrapInt64_id _ (by omega) (by omega)
        have hpos : 0 < env.copyN := by
          rw [hcp] at hne
          omega
        simp only [hstep, attemptOffsets_append, hs1] at hk ⊢
        cases k with
        | zero =>
          simp only [List.singleton_append, List.getElem?_cons_zero, Option.some.injEq] at hk
          subst hk
          simp
        | succ j =>
          simp only [List.singleton_append, List.getElem?_cons_succ] at hk
          obtain ⟨i1, i2⟩ := ih b1 (by omega) (fun e he => hn e (by simp [he])) (by omega) j o hk
          constructor
          · rw [i1]
            simp only [List.singleton_append, List.zipWith_cons_cons, List.take_succ_cons,
              List.sum_cons, hcp]
            omega
          · intro _
            rw [i1]
            have hz : 0 ≤ ((List.zipWith
                (fun e x => returnedCount (transferFromOffset e path d true x)) rest
                (attemptOffsets (retrieveLoop path d resumable rest b1).1)).take j).sum := by
              apply List.sum_nonneg
              intro x hx
              exact zipCounts_nonneg path d rest _ (fun e he => hn e (by simp [he])) x
                (List.mem_of_mem_take hx)
            omega
      | done b1 =>
        simp only [hstep, hs1] at hk ⊢
        cases k with
        | zero =>
          simp only [List.getElem?_cons_zero, Option.some.injEq] at hk
          subst hk
          simp
        | succ j => simp at hk
      | ended e1 =>
        simp only [hstep, hs1] at hk ⊢
        cases k with
        | zero =>
          simp only [List.getElem?_cons_zero, Option.some.injEq] at hk
          subst hk
          simp
        | succ j => simp at hk
theorem Retrieve_offsets_eq (env : RetrieveEnv) (path : String) (d : Bool) :
    attemptOffsets (Retrieve env path d).1 = [] ∨
    attemptOffsets (Retrieve env path d).1
      = attemptOffsets (retrieveLoop path d (canResume env.resume) env.attempts 0).1 := by
  have hs := (size_trace env.size path).1
  unfold Retrieve
  cases h : size env.size path with
  | mk ev0 r =>
    obtain ⟨sz, err⟩ := r
    rw [h] at hs
    simp only at hs ⊢
    split_ifs
    · left; exact hs
    · right
      cases hl : retrieveLoop path d (canResume env.resume) env.attempts 0 with
      | mk ev st =>
        cases st <;> simp only [] <;> (try split_ifs) <;>
          simp [attemptOffsets_append, hs]
    · right
      cases hl : retrieveLoop path d (canResume env.resume) env.attempts 0 with
      | mk ev st =>
        cases st <;> simp only [] <;> (try split_ifs) <;>
          simp [attemptOffsets_append, hs, attemptOffsets]

/-- The resumed download of `resumeScenario`: attempts at offsets 0 and 40, `REST 40` sent,
nil returned. -/
theorem Retrieve_scenario (e : GoError) (he : e ≠ GoError.nil) (path : String) :
    (Retrieve (resumeScenario e) path false).2
      = Ending.returned GoError.nil ∧
    attemptOffsets (Retrieve (resumeScenario e) path false).1
      = [0, 40] ∧
    Event.command "REST 40" ∈ (Retrieve (resumeScenario e) path false).1 := by
  have hsz : size { msg := "100" } path
      = ([Event.acquire, Event.command ("SIZE " ++ path), Event.release false], 100,
          GoError.nil) := by
    have hp : parseInt64 "100" = some 100 := by decide
    simp [size, replyFileStatus, hp]
  have h1 : retrieveStep { copyN := 40, copyErr := e } path false true 0
      = ([Event.attempt 0, Event.acquire, Event.command ("RETR" ++ " " ++ path),
            Event.copy 40, Event.release true], LoopStep.again 40 e) := by
    have hw : wrapInt64 40 = 40 := by decide
    simp [retrieveStep, transferFromOffset, transferCommand, transferCopy, restCommand, he, hw]
  have h2 : retrieveStep { copyN := 60 } path false true 40
      = ([Event.attempt 40, Event.acquire, Event.command "REST 40",
            Event.command ("RETR" ++ " " ++ path), Event.copy 60, Event.release false],
          LoopStep.done 100) := by
    have hw : wrapInt64 100 = 100 := by decide
    have hr : restCommand 40 = [Event.command "REST 40"] := by decide
    have hpc : positiveCompletionReply 226 = true := by decide
    simp [retrieveStep, transferFromOffset, transferCommand, transferCopy, hr, hw, hpc]
  have hloop : retrieveLoop path false true
      [{ copyN := 40, copyErr := e }, { copyN := 60 }] 0
      = ([Event.attempt 0, Event.acquire, Event.command ("RETR" ++ " " ++ path),
            Event.copy 40, Event.release true, Event.attempt 40, Event.acquire,
            Event.command "REST 40", Event.command ("RETR" ++ " " ++ path), Event.copy 60,
            Event.release false], LoopStep.done 100) := by
    simp [retrieveLoop, h1, h2]
  have hrun : Retrieve (resumeScenario e) path false
      = ([Event.acquire, Event.command ("SIZE " ++ path), Event.release false,
            Event.acquire, Event.release false,
            Event.attempt 0, Event.acquire, Event.command ("RETR" ++ " " ++ path),
            Event.copy 40, Event.release true, Event.attempt 40, Event.acquire,
            Event.command "REST 40", Event.command ("RETR" ++ " " ++ path), Event.copy 60,
            Event.release false], Ending.returned GoError.nil) := by
    simp [Retrieve, resumeScenario, hsz, canResume, hloop]
  rw [hrun]
  refine ⟨rfl, rfl, ?_⟩
  simp
/-- C4. `Retrieve` resumes from the confirmed byte offset. For every environment whose copy
counts are non-negative and sum to less than 2^63 (the byte counts of `io.Copy`, inside
`int64`): the k-th call of `transferFromOffset` made by `Retrieve` is at the offset that is
the sum of the byte counts returned by the earlier calls (0 for the first), and every call
after the first is at a positive offset. In the scenario `resumeScenario` (size 100,
`REST STREAM` advertised, first attempt broken after 40 bytes, second attempt of 60 bytes
successful) the calls are at offsets 0 and 40, `REST 40` is sent, and `Retrieve` returns
nil. -/
theorem Retrieve_resumes_from_offset (env : RetrieveEnv) (path : String) (destNil : Bool)
    (hn : ∀ e ∈ env.attempts, 0 ≤ e.copyN)
    (hsum : (env.attempts.map TransferEnv.copyN).sum < 2 ^ 63) :
    (∀ (k : Nat) (o : Int),
      (attemptOffsets (Retrieve env path destNil).1)[k]? = some o →
      o = ((retrieveCounts env path destNil
            (attemptOffsets (Retrieve env path destNil).1)).take k).sum ∧
      (0 < k → 0 < o)) ∧
    (∀ (e : GoError) (p : String), e ≠ GoError.nil →
      (Retrieve (resumeScenario e) p false).2 = Ending.returned GoError.nil ∧
      attemptOffsets (Retrieve (resumeScenario e) p false).1 = [0, 40] ∧
      Event.command "REST 40" ∈ (Retrieve (resumeScenario e) p false).1) := by
  refine ⟨?_, fun e p he => Retrieve_scenario e he p⟩
  intro k o hk
  rcases Retrieve_offsets_eq env path destNil with h | h
  · rw [h] at hk
    simp at hk
  · rw [h] at hk ⊢
    have := retrieveLoop_offsets path destNil (canResume env.resume) env.attempts 0
      (le_refl 0) hn (by omega) k o hk
    unfold retrieveCounts
    constructor
    · rw [this.1]; ring
    · exact this.2

/-- Witness of `Retrieve_resumes_from_offset`: the second attempt of the resumed download is
at offset 40. -/
theorem Retrieve_resumes_from_offset_witness :
    (∀ e ∈ (resumeScenario (GoError.plain "connection reset")).attempts, 0 ≤ e.copyN) ∧
    (∀ o : Int,
      (attemptOffsets (Retrieve (resumeScenario (GoError.plain "connection reset"))
        "/f" false).1)[1]? = some o →
      o = ((retrieveCounts (resumeScenario (GoError.plain "connection reset")) "/f" false
            (attemptOffsets (Retrieve (resumeScenario (GoError.plain "connection reset"))
              "/f" false).1)).take 1).sum ∧
      (0 < 1 → 0 < o)) :=
  ⟨by decide,
    (Retrieve_resumes_from_offset (resumeScenario (GoError.plain "connection reset")) "/f"
      false (by decide) (by decide)).1 1⟩
theorem fmtS_of_ne_nil (err : GoError) (h : err ≠ GoError.nil) : fmtS err = err.Error := by
  cases err with
  | nil => exact absurd rfl h
  | plain t => rfl
  | ftp a b c d e => rfl

/-- C5. `Store` with a source that is no `io.Seeker`: whatever the host list and whatever
the server advertises, when the first call of `transferFromOffset` returns a positive byte
count `n` together with an error, `Store` makes that one call only, at offset 0, calls
`Seek` never (so it does not panic on the nil `seeker`), and returns an `ftpError` whose
text is the text of the attempt's error followed by " (can't resume)" and whose
`Temporary()` is true. -/
theorem Store_nonseekable (hosts : List String) (env : StoreEnv) (path : String)
    (src : Source) (s : StoreStepEnv) (rest : List StoreStepEnv) (n : Int) (err : GoError)
    (hsrc : src ≠ Source.readSeeker) (hsteps : env.steps = s :: rest)
    (hatt : (transferFromOffset s.transfer path true (decide (src = Source.nilReader)) 0).2
      = TransferEnding.returned n err)
    (hn : 0 < n) (herr : err ≠ GoError.nil) :
    (Store hosts env path src).2
      = Ending.returned (ftpError.toError
          { err := GoError.plain (err.Error ++ " (can't resume)"), temporary := true }) ∧
    attemptOffsets (Store hosts env path src).1 = [0] ∧
    seekOffsets (Store hosts env path src).1 = [] ∧
    (∀ e : GoError, (Store hosts env path src).2 = Ending.returned e →
      e.Temporary = true ∧ e.Error = err.Error ++ " (can't resume)") := by
  have htr := transferFromOffset_trace s.transfer path true (decide (src = Source.nilReader)) 0
  have hne : n ≠ 0 := by omega
  have hstep : storeAttempt s.transfer path src false 0
      = ((transferFromOffset s.transfer path true (decide (src = Source.nilReader)) 0).1,
          LoopStep.ended (Ending.returned (ftpError.toError
            { err := GoError.plain (err.Error ++ " (can't resume)"), temporary := true }))) := by
    unfold storeAttempt
    cases h : transferFromOffset s.transfer path true (decide (src = Source.nilReader)) 0 with
    | mk ev t =>
      rw [h] at hatt
      simp only at hatt
      subst hatt
      simp [herr, hne, fmtS_of_ne_nil err herr]
  have hloop : storeLoop path src false (s :: rest) 0 GoError.nil
      = ((transferFromOffset s.transfer path true (decide (src = Source.nilReader)) 0).1,
          LoopStep.ended (Ending.returned (ftpError.toError
            { err := GoError.plain (err.Error ++ " (can't resume)"), temporary := true }))) := by
    simp [storeLoop, storeStep, hstep]
  have hrun : Store hosts env path src
      = ((if decide (hosts.length = 1) = true ∧ env.resume.acquireErr = GoError.nil
            then [Event.acquire, Event.release false] else [])
          ++ (transferFromOffset s.transfer path true (decide (src = Source.nilReader)) 0).1,
          Ending.returned (ftpError.toError
            { err := GoError.plain (err.Error ++ " (can't resume)"), temporary := true })) := by
    unfold Store
    simp only [hsrc, ne_eq, not_false_eq_true, if_true, hsteps, hloop]
  rw [hrun]
  refine ⟨rfl, ?_, ?_, ?_⟩
  · rw [attemptOffsets_append, htr.1]
    split_ifs <;> rfl
  · rw [seekOffsets_append, htr.2]
    split_ifs <;> rfl
  · intro e he
    simp only [Ending.returned.injEq] at he
    subst he
    exact ⟨rfl, rfl⟩

/-- Witness of `Store_nonseekable`: a plain reader, two hosts, the copy broken after 5
bytes. -/
theorem Store_nonseekable_witness :
    (Store ["[10.0.0.1]:21", "[10.0.0.2]:21"]
        { steps := [{ transfer := { copyN := 5, copyErr := GoError.plain "broken pipe" } }] }
        "/f" Source.reader).2
      = Ending.returned (ftpError.toError
          { err := GoError.plain ((GoError.plain "broken pipe").Error ++ " (can't resume)"),
            temporary := true }) :=
  (Store_nonseekable ["[10.0.0.1]:21", "[10.0.0.2]:21"]
    { steps := [{ transfer := { copyN := 5, copyErr := GoError.plain "broken pipe" } }] }
    "/f" Source.reader { transfer := { copyN := 5, copyErr := GoError.plain "broken pipe" } }
    [] 5 (GoError.plain "broken pipe") (by decide) rfl (by decide) (by decide) (by decide)).1
theorem wrap_error_text (err : GoError) (h : err ≠ GoError.nil) (code : Int) (msg : String)
    (t1 t2 : Bool) : (GoError.ftp err code msg t1 t2).Error = err.Error := by
  cases err with
  | nil => exact absurd rfl h
  | plain t => rfl
  | ftp a b c d e => rfl

theorem wrap_error_code (err : GoError) (h : err.isError = true) (code : Int) (msg : String)
    (t1 t2 : Bool) :
    (GoError.ftp err code msg t1 t2).Code = err.Code ∧
    (GoError.ftp err code msg t1 t2).Message = err.Message := by
  cases err with
  | nil => simp [GoError.isError] at h
  | plain t => simp [GoError.isError] at h
  | ftp a b c d e => exact ⟨rfl, rfl⟩

theorem retrieveStep_zero (t : TransferEnv) (path : String) (d r : Bool) (b : Int)
    (err : GoError) (herr : err ≠ GoError.nil)
    (h : (transferFromOffset t path d true b).2 = TransferEnding.returned 0 err) :
    (retrieveStep t path d r b).2 = LoopStep.ended (Ending.returned err) := by
  unfold retrieveStep
  cases hh : transferFromOffset t path d true b with
  | mk ev e =>
    rw [hh] at h
    simp only at h
    subst h
    simp [herr]

theorem retrieveLoop_zero (path : String) (d r : Bool) (err : GoError)
    (herr : err ≠ GoError.nil) (envs : List TransferEnv) (b : Int) (k : Nat) (o : Int)
    (t : TransferEnv)
    (hk : (attemptOffsets (retrieveLoop path d r envs b).1)[k]? = some o)
    (ht : envs[k]? = some t)
    (hz : (transferFromOffset t path d true o).2 = TransferEnding.returned 0 err) :
    (attemptOffsets (retrieveLoop path d r envs b).1).length = k + 1 ∧
    (retrieveLoop path d r envs b).2 = LoopStep.ended (Ending.returned err) := by
  induction envs generalizing b k with
  | nil => simp at ht
  | cons env rest ih =>
    obtain ⟨hs1, _⟩ := retrieveStep_spec env path d r b
    unfold retrieveLoop at hk ⊢
    cases k with
    | zero =>
      simp only [List.getElem?_cons_zero, Option.some.injEq] at ht
      subst ht
      have ho : o = b := by
        cases hstep : retrieveStep env path d r b with
        | mk ev st =>
          rw [hstep] at hs1 hk
          simp only at hs1
          cases st <;> simp [attemptOffsets_append, hs1] at hk <;> exact hk.symm
      subst ho
      have hz2 := retrieveStep_zero env path d r o err herr hz
      cases hstep : retrieveStep env path d r o with
      | mk ev st =>
        rw [hstep] at hs1 hz2
        simp only at hs1 hz2
        subst hz2
        simp [hs1]
    | succ j =>
      simp only [List.getElem?_cons_succ] at ht
      cases hstep : retrieveStep env path d r b with
      | mk ev st =>
        rw [hstep] at hs1 hk
        simp only at hs1
        cases st with
        | again b1 e1 =>
          simp only [attemptOffsets_append, hs1, List.singleton_append,
            List.getElem?_cons_succ] at hk
          obtain ⟨i1, i2⟩ := ih b1 j hk ht
          simp only [attemptOffsets_append, hs1, List.singleton_append, List.length_cons, i1]
          exact ⟨trivial, i2⟩
        | done b1 => simp [hs1] at hk
        | ended e1 => simp [hs1] at hk

theorem Retrieve_run (env : RetrieveEnv) (path : String) (d : Bool) :
    attemptOffsets (Retrieve env path d).1 = [] ∨
    (attemptOffsets (Retrieve env path d).1
        = attemptOffsets (retrieveLoop path d (canResume env.resume) env.attempts 0).1 ∧
      ∀ e : Ending,
        (retrieveLoop path d (canResume env.resume) env.attempts 0).2 = LoopStep.ended e →
        (Retrieve env path d).2 = e) := by
  have hs := (size_trace env.size path).1
  unfold Retrieve
  cases h : size env.size path with
  | mk ev0 r0 =>
    obtain ⟨sz, err⟩ := r0
    rw [h] at hs
    simp only at hs ⊢
    by_cases he : err ≠ GoError.nil
    · left
      rw [if_pos he]
      exact hs
    · right
      rw [if_neg he]
      cases hl : retrieveLoop path d (canResume env.resume) env.attempts 0 with
      | mk ev st =>
        cases st with
        | again b1 e1 =>
          simp only []
          refine ⟨?_, fun e hh => by simp at hh⟩
          split_ifs <;> simp [attemptOffsets_append, hs, attemptOffsets]
        | done b1 =>
          simp only []
          refine ⟨?_, fun e hh => by simp at hh⟩
          split_ifs <;> simp [attemptOffsets_append, hs, attemptOffsets]
        | ended e1 =>
          simp only []
          refine ⟨?_, fun e hh => by simp only [LoopStep.ended.injEq] at hh; exact hh⟩
          split_ifs <;> simp [attemptOffsets_append, hs, attemptOffsets]

theorem storeAttempt_spec (t : TransferEnv) (path : String) (src : Source) (r : Bool)
    (o : Int) :
    attemptOffsets (storeAttempt t path src r o).1 = [o] ∧
    (∀ err : GoError, err ≠ GoError.nil →
      (transferFromOffset t path true (decide (src = Source.nilReader)) o).2
        = TransferEnding.returned 0 err →
      (storeAttempt t path src r o).2
        = LoopStep.ended (Ending.returned
            (ftpError.toError { err := err, temporary := true }))) := by
  have ht := (transferFromOffset_trace t path true (decide (src = Source.nilReader)) o).1
  unfold storeAttempt
  cases h : transferFromOffset t path true (decide (src = Source.nilReader)) o with
  | mk ev e =>
    rw [h] at ht
    cases e with
    | panicked m => exact ⟨ht, fun err _ hh => by simp at hh⟩
    | returned n e1 =>
      simp only
      constructor
      · split_ifs <;> exact ht
      · intro err herr hh
        simp only [TransferEnding.returned.injEq] at hh
        obtain ⟨hn, he⟩ := hh
        subst hn
        subst he
        simp [herr]

theorem storeStep_spec (env : StoreStepEnv) (path : String) (src : Source) (r : Bool)
    (b : Int) (err0 : GoError) :
    (attemptOffsets (storeStep env path src r b err0).1 = [] ∧
      ∃ e : Ending, (storeStep env path src r b err0).2 = LoopStep.ended e) ∨
    (∃ o : Int, attemptOffsets (storeStep env path src r b err0).1 = [o] ∧
      (storeStep env path src r b err0).2 = (storeAttempt env.transfer path src r o).2) := by
  have hs := (size_trace env.size path).1
  unfold storeStep
  by_cases hb : b > 0
  · rw [if_pos hb]
    cases h : size env.size path with
    | mk ev0 r0 =>
      obtain ⟨sz, sizeErr⟩ := r0
      rw [h] at hs
      simp only at hs ⊢
      by_cases c1 : sizeErr ≠ GoError.nil
      · rw [if_pos c1]
        left; exact ⟨hs, _, rfl⟩
      · rw [if_neg c1]
        by_cases c2 : sz = -1
        · rw [if_pos c2]
          left; exact ⟨hs, _, rfl⟩
        · rw [if_neg c2]
          by_cases c3 : src ≠ Source.readSeeker
          · rw [if_pos c3]
            left; exact ⟨hs, _, rfl⟩
          · rw [if_neg c3]
            by_cases c4 : env.seekErr ≠ GoError.nil
            · rw [if_pos c4]
              left
              refine ⟨?_, _, rfl⟩
              simp [attemptOffsets_append, hs, attemptOffsets]
            · rw [if_neg c4]
              right
              refine ⟨sz, ?_, rfl⟩
              simp [attemptOffsets_append, hs, attemptOffsets,
                (storeAttempt_spec env.transfer path src r sz).1]
  · rw [if_neg hb]
    right
    exact ⟨b, (storeAttempt_spec _ _ _ _ _).1, rfl⟩

theorem storeLoop_zero (path : String) (src : Source) (r : Bool) (err : GoError)
    (herr : err ≠ GoError.nil) (envs : List StoreStepEnv) (b : Int) (err0 : GoError)
    (k : Nat) (o : Int) (s : StoreStepEnv)
    (hk : (attemptOffsets (storeLoop path src r envs b err0).1)[k]? = some o)
    (ht : envs[k]? = some s)
    (hz : (transferFromOffset s.transfer path true (decide (src = Source.nilReader)) o).2
      = TransferEnding.returned 0 err) :
    (attemptOffsets (storeLoop path src r envs b err0).1).length = k + 1 ∧
    (storeLoop path src r envs b err0).2
      = LoopStep.ended (Ending.returned (ftpError.toError { err := err, temporary := true })) := by
  induction envs generalizing b err0 k with
  | nil => simp at ht
  | cons env rest ih =>
    have hsp := storeStep_spec env path src r b err0
    unfold storeLoop at hk ⊢
    cases hstep : storeStep env path src r b err0 with
    | mk ev st =>
      rw [hstep] at hsp hk
      simp only at hsp
      rcases hsp with ⟨h0, e, he⟩ | ⟨o1, h1, h2⟩
      · subst he
        simp [h0] at hk
      · cases k with
        | zero =>
          simp only [List.getElem?_cons_zero, Option.some.injEq] at ht
          subst ht
          have ho : o = o1 := by
            cases st <;> simp [attemptOffsets_append, h1] at hk <;> exact hk.symm
          subst ho
          have hz2 := (storeAttempt_spec env.transfer path src r o).2 err herr hz
          rw [hz2] at h2
          subst h2
          simp [h1]
        | succ j =>
          simp only [List.getElem?_cons_succ] at ht
          cases st with
          | again b1 e1 =>
            simp only [attemptOffsets_append, h1, List.singleton_append,
              List.getElem?_cons_succ] at hk
            obtain ⟨i1, i2⟩ := ih b1 e1 j hk ht
            simp only [attemptOffsets_append, h1, List.singleton_append, List.length_cons, i1]
            exact ⟨trivial, i2⟩
          | done b1 => simp [h1] at hk
          | ended e1 => simp [h1] at hk

theorem Store_run (hosts : List String) (env : StoreEnv) (path : String) (src : Source) :
    ∃ r : Bool,
      attemptOffsets (Store hosts env path src).1
        = attemptOffsets (storeLoop path src r env.steps 0 GoError.nil).1 ∧
      ∀ e : Ending, (storeLoop path src r env.steps 0 GoError.nil).2 = LoopStep.ended e →
        (Store hosts env path src).2 = e := by
  refine ⟨if src ≠ Source.readSeeker then false
    else (decide (hosts.length = 1) && canResume env.resume), ?_⟩
  have hs := (size_trace env.finalSize path).1
  unfold Store
  simp only
  cases hl : storeLoop path src (if src ≠ Source.readSeeker then false
      else (decide (hosts.length = 1) && canResume env.resume)) env.steps 0 GoError.nil with
  | mk ev st =>
    cases st with
    | again b1 e1 =>
      simp only []
      refine ⟨?_, fun e hh => by simp at hh⟩
      split_ifs <;> simp [attemptOffsets_append, attemptOffsets]
    | done b1 =>
      simp only []
      refine ⟨?_, fun e hh => by simp at hh⟩
      cases h : size env.finalSize path with
      | mk ev0 r0 =>
        obtain ⟨sz, sizeErr⟩ := r0
        rw [h] at hs
        simp only at hs ⊢
        split_ifs <;> simp [attemptOffsets_append, attemptOffsets, hs]
    | ended e1 =>
      simp only []
      refine ⟨?_, fun e hh => by simp only [LoopStep.ended.injEq] at hh; exact hh⟩
      split_ifs <;> simp [attemptOffsets_append, attemptOffsets]

/-- C6 (as amended). Zero-byte failures end the operation, at the first attempt and at every
later one: when the k-th call of `transferFromOffset` made by the operation returns 0 bytes
together with an error, that call is the last one. `Retrieve` returns that error itself, so
that an error built from an unexpected reply code is `Temporary()` exactly when the code is
in 400..499. `Store` returns an `ftpError` that wraps the attempt's error with the
`temporary` flag set: its text is the text of the attempt's error, its `Code()` and
`Message()` are those of the attempt's error when that is an `ftpError`, and its
`Temporary()` is true whatever the reply code. -/
theorem zero_byte_failure_surfaced (path : String) (err : GoError) (herr : err ≠ GoError.nil)
    (k : Nat) (o : Int) :
    (∀ (env : RetrieveEnv) (destNil : Bool) (t : TransferEnv),
      (attemptOffsets (Retrieve env path destNil).1)[k]? = some o →
      env.attempts[k]? = some t →
      (transferFromOffset t path destNil true o).2 = TransferEnding.returned 0 err →
      (Retrieve env path destNil).2 = Ending.returned err ∧
      (attemptOffsets (Retrieve env path destNil).1).length = k + 1) ∧
    (∀ (code : Int) (msg : String),
      (ftpError.toError { code := code, msg := msg }).Temporary = true
        ↔ (400 ≤ code ∧ code ≤ 499)) ∧
    (∀ (hosts : List String) (env : StoreEnv) (src : Source) (s : StoreStepEnv),
      (attemptOffsets (Store hosts env path src).1)[k]? = some o →
      env.steps[k]? = some s →
      (transferFromOffset s.transfer path true (decide (src = Source.nilReader)) o).2
        = TransferEnding.returned 0 err →
      (Store hosts env path src).2
        = Ending.returned (ftpError.toError { err := err, temporary := true }) ∧
      (attemptOffsets (Store hosts env path src).1).length = k + 1 ∧
      (ftpError.toError { err := err, temporary := true }).Temporary = true ∧
      (ftpError.toError { err := err, temporary := true }).Error = err.Error ∧
      (err.isError = true →
        (ftpError.toError { err := err, temporary := true }).Code = err.Code ∧
        (ftpError.toError { err := err, temporary := true }).Message = err.Message)) := by
  refine ⟨?_, ?_, ?_⟩
  · intro env destNil t hk ht hz
    rcases Retrieve_run env path destNil with h0 | ⟨h1, h2⟩
    · rw [h0] at hk
      simp at hk
    · rw [h1] at hk ⊢
      obtain ⟨i1, i2⟩ := retrieveLoop_zero path destNil (canResume env.resume) err herr
        env.attempts 0 k o t hk ht hz
      exact ⟨h2 _ i2, i1⟩
  · intro code msg
    have := transientNegativeCompletionReply_iff code
    simp only [ftpError.toError, GoError.Temporary, ftpError.Temporary, Bool.false_or]
    exact this
  · intro hosts env src s hk ht hz
    obtain ⟨r, h1, h2⟩ := Store_run hosts env path src
    rw [h1] at hk ⊢
    obtain ⟨i1, i2⟩ := storeLoop_zero path src r err herr env.steps 0 GoError.nil k o s hk ht hz
    exact ⟨h2 _ i2, i1, rfl, wrap_error_text err herr _ _ _ _,
      fun h => wrap_error_code err h _ _ _ _⟩

/-- Witness of `zero_byte_failure_surfaced` at the second attempt of a resumed upload: the
first copy breaks after 5 bytes, the server reports size 5, and `STOR` at offset 5 is
refused with 452. -/
theorem zero_byte_failure_surfaced_witness :
    (attemptOffsets (Store ["[10.0.0.1]:21"]
        { resume := { restStream := true }
          steps := [{ transfer := { copyN := 5, copyErr := GoError.plain "broken pipe" } },
            { size := { msg := "5" }
              transfer := { cmdErr := ftpError.toError { code := 452, msg := "disk full" } } }] }
        "/f" Source.readSeeker).1)[1]? = some 5 ∧
    (Store ["[10.0.0.1]:21"]
        { resume := { restStream := true }
          steps := [{ transfer := { copyN := 5, copyErr := GoError.plain "broken pipe" } },
            { size := { msg := "5" }
              transfer := { cmdErr := ftpError.toError { code := 452, msg := "disk full" } } }] }
        "/f" Source.readSeeker).2
      = Ending.returned (ftpError.toError
          { err := ftpError.toError { code := 452, msg := "disk full" }, temporary := true }) :=
  ⟨by decide,
    ((zero_byte_failure_surfaced "/f" (ftpError.toError { code := 452, msg := "disk full" })
        (by decide) 1 5).2.2 ["[10.0.0.1]:21"]
      { resume := { restStream := true }
        steps := [{ transfer := { copyN := 5, copyErr := GoError.plain "broken pipe" } },
          { size := { msg := "5" }
            transfer := { cmdErr := ftpError.toError { code := 452, msg := "disk full" } } }] }
      Source.readSeeker
      { size := { msg := "5" }
        transfer := { cmdErr := ftpError.toError { code := 452, msg := "disk full" } } }
      (by decide) rfl (by decide)).1⟩

/-- C6 as stated fails for `Store`: when `STOR` is answered with 550 on the first attempt
(zero bytes transferred), `Store` makes one attempt and returns an error with `Code() = 550`
whose `Temporary()` is true, not false; the same holds when an empty upload is answered with
550 after the data connection is closed. -/
theorem Store_zero_byte_550_is_temporary :
    (Store ["[10.0.0.1]:21"]
        { steps := [{ transfer :=
            { cmdErr := ftpError.toError { code := 550, msg := "denied" } } }] }
        "/f" Source.reader).2
      = Ending.returned (GoError.ftp (GoError.ftp GoError.nil 550 "denied" false false)
          0 "" false true) ∧
    attemptOffsets (Store ["[10.0.0.1]:21"]
        { steps := [{ transfer :=
            { cmdErr := ftpError.toError { code := 550, msg := "denied" } } }] }
        "/f" Source.reader).1 = [0] ∧
    (Store ["[10.0.0.1]:21"]
        { steps := [{ transfer := { copyN := 0, respCode := 550, respMsg := "denied" } }] }
        "/f" Source.reader).2
      = Ending.returned (GoError.ftp (GoError.ftp GoError.nil 550 "denied" false false)
          0 "" false true) ∧
    (GoError.ftp (GoError.ftp GoError.nil 550 "denied" false false) 0 "" false true).Code
      = 550 ∧
    (GoError.ftp (GoError.ftp GoError.nil 550 "denied" false false) 0 "" false true).Temporary
      = true ∧
    (GoError.ftp GoError.nil 550 "denied" false false).Temporary = false := by
  decide

end ftp
